import Mathlib

/-!
Verification of the NTNU-Digilab gcode-script repository
(`src/gcode_script.py`, a Rhino → G-code converter for a CO2 laser cutter).

This file is a shallow embedding of the script's core algorithms:

* the coordinate quantization `Decimal(x).quantize(ROUNDING)` (lines 124-125
  and its uses throughout the file),
* the containment-ordering sorter `sort_advanced` / `sort_depth_first` /
  `findChildrenObjects` (lines 503-652),
* the arc direction and offset solver `arc_calc` (lines 681-776),
* the adaptive linearizer `curve_calc_to_lines` (lines 829-929),
* the circle and line emission branches of `gcode_from_objects`
  (lines 1133-1180 and 1285-1300).

Modelling conventions:

* Python floats and `Decimal` values are modelled as exact rationals (`ℚ`).
  `Decimal(float)` is exact in Python, and the script's 28-digit working
  precision far exceeds anything the 3-decimal output quantization can see,
  so exact rationals are a faithful idealization for every property below.
* Calls into the Rhino geometry kernel (`rs.*`) are modelled as oracle
  records (`GeomEnv`, `TrigOracle`, `CurveKernel`): the script treats the
  kernel as a pure query interface, and the claims quantify over its answers.
* The script is Python 2: `sorted(..., reverse=True)` is a stable sort
  (modelled with `List.insertionSort` and a flipped comparison), `None`
  compares below every number, and an uncaught exception aborts the run
  (fallible paths are modelled with `Option`).
* G-code text emission (`gcode += ...`) is modelled as a list of `Cmd`
  values, one per emitted command line, with the coordinates already
  quantized exactly as each `+=` in the source quantizes them.
-/

namespace Gcode

/-! ### Data model

`CurveObject` (source lines 128-156): the per-curve descriptor record.
Coordinates live in the working plane, so a point is an (x, y) pair
(the script's third coordinate is constant 0 and never read by the code
modelled here).  `bounding_box` is `[min_x, max_x, min_y, max_y]`
(source line 431-432). -/

structure Point where
  x : ℚ
  y : ℚ
deriving DecidableEq, Repr

structure BoundingBox where
  min_x : ℚ
  max_x : ℚ
  min_y : ℚ
  max_y : ℚ
deriving DecidableEq, Repr

structure CurveObject where
  guid : Nat
  curve_type : String
  closed : Bool
  area : Option ℚ
  start_point : Point
  end_point : Point
  center_point : Option Point
  bounding_box : BoundingBox
deriving DecidableEq, Repr

/-- The kernel query used by `findChildrenObjects` (source line 636):
`rs.PlanarClosedCurveContainment(parent.guid, cand.guid)` returns a result
code; code `3` means "the second curve is inside the first". -/
structure GeomEnv where
  containment : Nat → Nat → Nat

/-! ### Coordinate quantization

Source lines 124-125 define
`CONTEXT = Context(prec=28, rounding=ROUND_HALF_DOWN)` and
`ROUNDING = Decimal('1.000')`.  `CONTEXT` is **never installed**
(`setcontext` is never called and no `quantize` call passes it), so every
`Decimal(x).quantize(ROUNDING)` in the script runs under the default
decimal context, whose rounding mode is `ROUND_HALF_EVEN`.  `quantize3`
below is therefore round-half-even to 3 decimal places. -/

/-- Round a rational to the nearest integer, ties to the even integer:
the rounding performed by `Decimal.quantize` under the default context. -/
def roundHalfEven (q : ℚ) : ℤ :=
  let n := ⌊q⌋
  let r := q - n
  if r < 1/2 then n
  else if 1/2 < r then n + 1
  else if Even n then n else n + 1

/-- `Decimal(x).quantize(ROUNDING)` with `ROUNDING = Decimal('1.000')`:
round to 3 decimal places, half to even (see the note above). -/
def quantize3 (q : ℚ) : ℚ := (roundHalfEven (q * 1000) : ℚ) / 1000

/-- Modelled from the spec's words only (for comparison with `quantize3`):
round to the nearest integer with halves rounded **toward zero**
(`ROUND_HALF_DOWN`), the mode the spec claims is in effect. -/
def roundHalfDownSpec (q : ℚ) : ℤ :=
  let n := ⌊q⌋
  let r := q - n
  if r < 1/2 then n
  else if 1/2 < r then n + 1
  else if q < 0 then n + 1 else n

/-- Modelled from the spec's words only: 3-decimal round-half-down
quantization, which §4.4 of the spec claims the script performs. -/
def quantize3HalfDownSpec (q : ℚ) : ℚ := (roundHalfDownSpec (q * 1000) : ℚ) / 1000

theorem roundHalfEven_intCast (m : ℤ) : roundHalfEven (m : ℚ) = m := by
  unfold roundHalfEven
  simp only [Int.floor_intCast, sub_self]
  norm_num

/-- C9: quantization is idempotent. -/
theorem quantize3_idempotent (q : ℚ) : quantize3 (quantize3 q) = quantize3 q := by
  unfold quantize3
  rw [div_mul_cancel₀ _ (by norm_num : (1000 : ℚ) ≠ 0), roundHalfEven_intCast]

/-! ### The sort comparators of `sort_advanced` (source lines 535-573)

Python 2's `sorted(..., reverse=True)` is a stable sort in which `a` is
placed before `b` exactly when `key b ≤ key a`; ties keep their original
relative order.  `List.insertionSort` with the flipped comparison has the
same behaviour.  `None` (an open curve's area) compares below every number
in Python 2, which `optQLe` reproduces; the closed list never contains a
`none` area in practice, but the model keeps the comparison total. -/

/-- Lexicographic `≤` on `(x, y)` key pairs (Python tuple comparison). -/
def pairLeQ (p q : ℚ × ℚ) : Prop := p.1 < q.1 ∨ (p.1 = q.1 ∧ p.2 ≤ q.2)

instance : DecidableRel pairLeQ := fun p q => by
  unfold pairLeQ; infer_instance

/-- The sort key `(CurveObject.start_point[0], CurveObject.start_point[1])`. -/
def xyKey (o : CurveObject) : ℚ × ℚ := (o.start_point.x, o.start_point.y)

/-- `sorted(key=(start x, start y), reverse=True)`: `a` sorts before `b`
iff `xyKey b ≤ xyKey a` lexicographically. -/
def xy_desc (a b : CurveObject) : Prop := pairLeQ (xyKey b) (xyKey a)

instance : DecidableRel xy_desc := fun a b => by
  unfold xy_desc; infer_instance

/-- Python 2 comparison on possibly-`None` areas: `None` is below every
number. -/
def optQLe : Option ℚ → Option ℚ → Prop
  | none, _ => True
  | some _, none => False
  | some x, some y => x ≤ y

instance : ∀ a b, Decidable (optQLe a b)
  | none, _ => isTrue trivial
  | some _, none => isFalse id
  | some x, some y => inferInstanceAs (Decidable (x ≤ y))

/-- `sorted(key=CurveObject.area, reverse=True)`: `a` sorts before `b` iff
`area b ≤ area a`. -/
def area_desc (a b : CurveObject) : Prop := optQLe b.area a.area

instance : DecidableRel area_desc := fun a b => by
  unfold area_desc; infer_instance

instance : IsTotal CurveObject xy_desc where
  total a b := by
    unfold xy_desc pairLeQ
    rcases lt_trichotomy (xyKey a).1 (xyKey b).1 with h | h | h
    · exact Or.inr (Or.inl h)
    · rcases le_total (xyKey a).2 (xyKey b).2 with h2 | h2
      · exact Or.inr (Or.inr ⟨h, h2⟩)
      · exact Or.inl (Or.inr ⟨h.symm, h2⟩)
    · exact Or.inl (Or.inl h)

instance : IsTrans CurveObject xy_desc where
  trans a b c hab hbc := by
    unfold xy_desc pairLeQ at *
    rcases hab with h1 | ⟨e1, l1⟩ <;> rcases hbc with h2 | ⟨e2, l2⟩
    · exact Or.inl (h2.trans h1)
    · exact Or.inl (e2 ▸ h1)
    · exact Or.inl (e1 ▸ h2)
    · exact Or.inr ⟨e2.trans e1, l2.trans l1⟩

theorem optQLe_total : ∀ a b, optQLe a b ∨ optQLe b a
  | none, _ => Or.inl trivial
  | some _, none => Or.inr trivial
  | some x, some y => by
    rcases le_total x y with h | h
    · exact Or.inl h
    · exact Or.inr h

theorem optQLe_trans : ∀ {a b c}, optQLe a b → optQLe b c → optQLe a c
  | none, _, _, _, _ => trivial
  | some _, none, _, h, _ => h.elim
  | some _, some _, none, _, h => h.elim
  | some _, some _, some _, h1, h2 => le_trans h1 h2

theorem optQLe_antisymm : ∀ {a b}, optQLe a b → optQLe b a → a = b
  | none, none, _, _ => rfl
  | none, some _, _, h => h.elim
  | some _, none, h, _ => h.elim
  | some x, some y, h1, h2 => by rw [le_antisymm h1 h2]

instance : IsTotal CurveObject area_desc where
  total a b := optQLe_total b.area a.area

instance : IsTrans CurveObject area_desc where
  trans _ _ _ hab hbc := optQLe_trans hbc hab

/-! ### Containment rule and child search (source lines 616-652) -/

/-- One candidate test of `findChildrenObjects`:
* same guid → not a child (source line 632);
* closed candidate → kernel containment result must be `3`
  ("closed child inside closed parent", lines 635-638);
* open candidate → its bounding box must be strictly inside the parent's
  on all four bounds (lines 639-648). -/
def isChildOf (env : GeomEnv) (parent cand : CurveObject) : Bool :=
  if parent.guid = cand.guid then false
  else if cand.closed = true then env.containment parent.guid cand.guid == 3
  else
    decide (cand.bounding_box.min_x > parent.bounding_box.min_x) &&
    decide (cand.bounding_box.max_x < parent.bounding_box.max_x) &&
    decide (cand.bounding_box.min_y > parent.bounding_box.min_y) &&
    decide (cand.bounding_box.max_y < parent.bounding_box.max_y)

/-- `findChildrenObjects(parent, candidateList)` (source lines 616-652):
an open parent returns `None`; a closed parent returns the candidates it
contains, in candidate-list order. -/
def findChildrenObjects (env : GeomEnv) (parent : CurveObject)
    (candidateList : List CurveObject) : Option (List CurveObject) :=
  if parent.closed = true then
    some (candidateList.filter (fun cand => isChildOf env parent cand))
  else none

/-- The §4.1 containment rule exactly as `findChildrenObjects` implements
it: only a closed parent can contain, and then `isChildOf` decides. -/
def contains_rule (env : GeomEnv) (p c : CurveObject) : Bool :=
  p.closed && isChildOf env p c

theorem contains_rule_irrefl (env : GeomEnv) (p : CurveObject) :
    contains_rule env p p = false := by
  unfold contains_rule isChildOf
  simp

theorem contains_rule_ne {env : GeomEnv} {p c : CurveObject}
    (h : contains_rule env p c = true) : p ≠ c := by
  intro he
  rw [he, contains_rule_irrefl] at h
  exact Bool.false_ne_true h

theorem contains_rule_closed {env : GeomEnv} {p c : CurveObject}
    (h : contains_rule env p c = true) : p.closed = true := by
  unfold contains_rule at h
  simp only [Bool.and_eq_true] at h
  exact h.1

/-! ### The recursive depth-first walk (source lines 594-613)

`sort_depth_first(complete_graph, current_vertex, discovered_list)` appends
the current vertex to the discovered list, computes its children from the
(unchanged) working list, and recurses on each child not yet discovered,
in children-list order.  The Lean model threads the discovered list
explicitly and uses a fuel parameter for termination; `sort_rounds` below
calls it with fuel `complete_list.length`, which is never exhausted
(each nested call consumes one fuel unit and permanently adds one
previously-undiscovered vertex of the working list). -/

/-- The `for child in children` loop of `sort_depth_first` (source lines
610-613), abstracted over the recursive walk `step` so that both functions
are structurally recursive (and hence computable by the kernel). -/
def sdf_children_go (step : CurveObject → List CurveObject → List CurveObject) :
    List CurveObject → List CurveObject → List CurveObject
  | [], discovered => discovered
  | child :: rest, discovered =>
    if child ∈ discovered then sdf_children_go step rest discovered
    else sdf_children_go step rest (step child discovered)

def sort_depth_first (env : GeomEnv) (fuel : Nat) (complete_graph : List CurveObject)
    (current_vertex : CurveObject) (discovered_list : List CurveObject) :
    List CurveObject :=
  match fuel with
  | 0 => discovered_list ++ [current_vertex]
  | f + 1 =>
    let discovered := discovered_list ++ [current_vertex]
    match findChildrenObjects env current_vertex complete_graph with
    | none => discovered
    | some children =>
      sdf_children_go (fun child disc => sort_depth_first env f complete_graph child disc)
        children discovered

/-- The children loop at fuel level `fuel`: each not-yet-discovered child
is walked with `sort_depth_first` at that fuel. -/
def sdf_children (env : GeomEnv) (fuel : Nat) (complete_graph : List CurveObject)
    (children : List CurveObject) (discovered : List CurveObject) :
    List CurveObject :=
  sdf_children_go (fun child disc => sort_depth_first env fuel complete_graph child disc)
    children discovered

/-! Equation lemmas for the two mutually recursive functions. -/

theorem sort_depth_first_zero (env : GeomEnv) (g : List CurveObject) (v : CurveObject)
    (d : List CurveObject) : sort_depth_first env 0 g v d = d ++ [v] := rfl

theorem sort_depth_first_succ_closed (env : GeomEnv) {v : CurveObject} (h : v.closed = true)
    (f : Nat) (g : List CurveObject) (d : List CurveObject) :
    sort_depth_first env (f + 1) g v d =
      sdf_children env f g (g.filter (fun cand => isChildOf env v cand)) (d ++ [v]) := by
  rw [sort_depth_first, sdf_children]
  simp [findChildrenObjects, h]

theorem sort_depth_first_succ_open (env : GeomEnv) {v : CurveObject} (h : v.closed = false)
    (f : Nat) (g : List CurveObject) (d : List CurveObject) :
    sort_depth_first env (f + 1) g v d = d ++ [v] := by
  rw [sort_depth_first]
  simp [findChildrenObjects, h]

theorem sdf_children_nil (env : GeomEnv) (f : Nat) (g : List CurveObject)
    (d : List CurveObject) : sdf_children env f g [] d = d := rfl

theorem sdf_children_cons_mem (env : GeomEnv) (f : Nat) (g : List CurveObject)
    {c : CurveObject} {d : List CurveObject} (h : c ∈ d) (cs : List CurveObject) :
    sdf_children env f g (c :: cs) d = sdf_children env f g cs d := by
  rw [sdf_children, sdf_children, sdf_children_go]
  simp [h]

theorem sdf_children_cons_not_mem (env : GeomEnv) (f : Nat) (g : List CurveObject)
    {c : CurveObject} {d : List CurveObject} (h : c ∉ d) (cs : List CurveObject) :
    sdf_children env f g (c :: cs) d =
      sdf_children env f g cs (sort_depth_first env f g c d) := by
  rw [sdf_children, sdf_children, sdf_children_go]
  simp [h]

/-- The discovered list only ever grows by appending: the previous
discovered list followed by the current vertex is a prefix of the walk's
result, and the discovered list is a prefix of the children loop's
result. -/
theorem sdf_extends (env : GeomEnv) : ∀ fuel : Nat,
    (∀ g v d, (d ++ [v]) <+: sort_depth_first env fuel g v d) ∧
    (∀ g cs d, d <+: sdf_children env fuel g cs d) := by
  intro fuel
  induction fuel with
  | zero =>
    have hP : ∀ g v d, (d ++ [v]) <+: sort_depth_first env 0 g v d := by
      intro g v d
      rw [sort_depth_first_zero]
    refine ⟨hP, ?_⟩
    intro g cs
    induction cs with
    | nil => intro d; rw [sdf_children_nil]
    | cons c cs ih =>
      intro d
      by_cases hc : c ∈ d
      · rw [sdf_children_cons_mem env _ _ hc]
        exact ih d
      · rw [sdf_children_cons_not_mem env _ _ hc]
        refine List.IsPrefix.trans ?_ (ih _)
        exact (List.prefix_append d [c]).trans (hP _ c d)
  | succ f hIH =>
    have hP : ∀ g v d, (d ++ [v]) <+: sort_depth_first env (f + 1) g v d := by
      intro g v d
      by_cases hv : v.closed = true
      · rw [sort_depth_first_succ_closed env hv]
        exact hIH.2 _ _ _
      · rw [sort_depth_first_succ_open env (Bool.not_eq_true _ ▸ hv)]
    refine ⟨hP, ?_⟩
    intro g cs
    induction cs with
    | nil => intro d; rw [sdf_children_nil]
    | cons c cs ih =>
      intro d
      by_cases hc : c ∈ d
      · rw [sdf_children_cons_mem env _ _ hc]
        exact ih d
      · rw [sdf_children_cons_not_mem env _ _ hc]
        refine List.IsPrefix.trans ?_ (ih _)
        exact (List.prefix_append d [c]).trans (hP _ c d)

theorem sdf_mem_self (env : GeomEnv) (fuel : Nat) (g : List CurveObject) (v : CurveObject)
    (d : List CurveObject) : v ∈ sort_depth_first env fuel g v d :=
  ((sdf_extends env fuel).1 g v d).subset (by simp)

/-- The walk never discovers a vertex twice. -/
theorem sdf_nodup (env : GeomEnv) : ∀ fuel : Nat,
    (∀ g v d, v ∉ d → d.Nodup → (sort_depth_first env fuel g v d).Nodup) ∧
    (∀ g cs d, d.Nodup → (sdf_children env fuel g cs d).Nodup) := by
  intro fuel
  induction fuel with
  | zero =>
    have hP : ∀ g v d, v ∉ d → d.Nodup → (sort_depth_first env 0 g v d).Nodup := by
      intro g v d hv hd
      rw [sort_depth_first_zero]
      simp [List.nodup_append, hd, hv]
    refine ⟨hP, ?_⟩
    intro g cs
    induction cs with
    | nil => intro d hd; rwa [sdf_children_nil]
    | cons c cs ih =>
      intro d hd
      by_cases hc : c ∈ d
      · rw [sdf_children_cons_mem env _ _ hc]; exact ih d hd
      · rw [sdf_children_cons_not_mem env _ _ hc]
        exact ih _ (hP _ c d hc hd)
  | succ f hIH =>
    have hP : ∀ g v d, v ∉ d → d.Nodup → (sort_depth_first env (f + 1) g v d).Nodup := by
      intro g v d hv hd
      by_cases hcl : v.closed = true
      · rw [sort_depth_first_succ_closed env hcl]
        exact hIH.2 _ _ _ (by simp [List.nodup_append, hd, hv])
      · rw [sort_depth_first_succ_open env (Bool.not_eq_true _ ▸ hcl)]
        simp [List.nodup_append, hd, hv]
    refine ⟨hP, ?_⟩
    intro g cs
    induction cs with
    | nil => intro d hd; rwa [sdf_children_nil]
    | cons c cs ih =>
      intro d hd
      by_cases hc : c ∈ d
      · rw [sdf_children_cons_mem env _ _ hc]; exact ih d hd
      · rw [sdf_children_cons_not_mem env _ _ hc]
        exact ih _ (hP _ c d hc hd)

/-- Everything the walk discovers is either previously discovered, the
start vertex (resp. a pending child), or a member of the working list. -/
theorem sdf_subset (env : GeomEnv) : ∀ fuel : Nat,
    (∀ g v d, ∀ x ∈ sort_depth_first env fuel g v d, x ∈ d ∨ x = v ∨ x ∈ g) ∧
    (∀ g cs d, ∀ x ∈ sdf_children env fuel g cs d, x ∈ d ∨ x ∈ cs ∨ x ∈ g) := by
  intro fuel
  induction fuel with
  | zero =>
    have hP : ∀ g v d, ∀ x ∈ sort_depth_first env 0 g v d, x ∈ d ∨ x = v ∨ x ∈ g := by
      intro g v d x hx
      rw [sort_depth_first_zero] at hx
      rcases List.mem_append.mp hx with h | h
      · exact Or.inl h
      · exact Or.inr (Or.inl (List.mem_singleton.mp h))
    refine ⟨hP, ?_⟩
    intro g cs
    induction cs with
    | nil => intro d x hx; rw [sdf_children_nil] at hx; exact Or.inl hx
    | cons c cs ih =>
      intro d x hx
      by_cases hc : c ∈ d
      · rw [sdf_children_cons_mem env _ _ hc] at hx
        rcases ih d x hx with h | h | h
        · exact Or.inl h
        · exact Or.inr (Or.inl (List.mem_cons_of_mem c h))
        · exact Or.inr (Or.inr h)
      · rw [sdf_children_cons_not_mem env _ _ hc] at hx
        rcases ih _ x hx with h | h | h
        · rcases hP _ c d x h with h2 | h2 | h2
          · exact Or.inl h2
          · exact Or.inr (Or.inl (h2 ▸ List.mem_cons_self c cs))
          · exact Or.inr (Or.inr h2)
        · exact Or.inr (Or.inl (List.mem_cons_of_mem c h))
        · exact Or.inr (Or.inr h)
  | succ f hIH =>
    have hP : ∀ g v d, ∀ x ∈ sort_depth_first env (f + 1) g v d, x ∈ d ∨ x = v ∨ x ∈ g := by
      intro g v d x hx
      by_cases hcl : v.closed = true
      · rw [sort_depth_first_succ_closed env hcl] at hx
        rcases hIH.2 _ _ _ x hx with h | h | h
        · rcases List.mem_append.mp h with h2 | h2
          · exact Or.inl h2
          · exact Or.inr (Or.inl (List.mem_singleton.mp h2))
        · exact Or.inr (Or.inr (List.mem_of_mem_filter h))
        · exact Or.inr (Or.inr h)
      · rw [sort_depth_first_succ_open env (Bool.not_eq_true _ ▸ hcl)] at hx
        rcases List.mem_append.mp hx with h | h
        · exact Or.inl h
        · exact Or.inr (Or.inl (List.mem_singleton.mp h))
    refine ⟨hP, ?_⟩
    intro g cs
    induction cs with
    | nil => intro d x hx; rw [sdf_children_nil] at hx; exact Or.inl hx
    | cons c cs ih =>
      intro d x hx
      by_cases hc : c ∈ d
      · rw [sdf_children_cons_mem env _ _ hc] at hx
        rcases ih d x hx with h | h | h
        · exact Or.inl h
        · exact Or.inr (Or.inl (List.mem_cons_of_mem c h))
        · exact Or.inr (Or.inr h)
      · rw [sdf_children_cons_not_mem env _ _ hc] at hx
        rcases ih _ x hx with h | h | h
        · rcases hP _ c d x h with h2 | h2 | h2
          · exact Or.inl h2
          · exact Or.inr (Or.inl (h2 ▸ List.mem_cons_self c cs))
          · exact Or.inr (Or.inr h2)
        · exact Or.inr (Or.inl (List.mem_cons_of_mem c h))
        · exact Or.inr (Or.inr h)

/-! ### The round loop of `sort_advanced` (source lines 580-586)

`while len(complete_list) > 0:` pop the head as a root, walk depth-first,
remove every discovered object from the working list
(`for x in discovered: complete_list.remove(x)`), and append the
discovered sequence to the result. -/

/-- `for x in discovered: complete_list.remove(x)` — Python's
`list.remove` deletes the first occurrence, which is `List.erase`. -/
def removeDiscovered (discovered complete_list : List CurveObject) : List CurveObject :=
  discovered.foldl (fun acc x => acc.erase x) complete_list

theorem removeDiscovered_eq_diff (d l : List CurveObject) :
    removeDiscovered d l = l.diff d :=
  (List.diff_eq_foldl l d).symm

theorem append_diff_perm_of_nodup_subset {d l : List CurveObject}
    (hd : d.Nodup) (hsub : ∀ x ∈ d, x ∈ l) : (d ++ l.diff d).Perm l := by
  apply List.subperm_append_diff_self_of_count_le
  intro x hx
  rw [List.count_eq_one_of_mem hd hx]
  exact List.one_le_count_iff.mpr (hsub x hx)

theorem removeDiscovered_sdf_length_lt (env : GeomEnv) (x : CurveObject)
    (xs : List CurveObject) :
    (removeDiscovered (sort_depth_first env (x :: xs).length (x :: xs) x [])
      (x :: xs)).length < (x :: xs).length := by
  set D := sort_depth_first env (x :: xs).length (x :: xs) x [] with hD
  have hN : D.Nodup := (sdf_nodup env _).1 _ _ _ (List.not_mem_nil x) List.nodup_nil
  have hsub : ∀ y ∈ D, y ∈ x :: xs := by
    intro y hy
    rcases (sdf_subset env _).1 _ _ _ y hy with h | h | h
    · exact absurd h (List.not_mem_nil y)
    · exact h ▸ List.mem_cons_self x xs
    · exact h
  have hperm := append_diff_perm_of_nodup_subset hN hsub
  have hlen := hperm.length_eq
  rw [List.length_append] at hlen
  have hx : x ∈ D := sdf_mem_self env _ _ _ _
  have hpos : 0 < D.length := List.length_pos_of_mem hx
  rw [removeDiscovered_eq_diff]
  omega

/-- The `while` loop of `sort_advanced` (source lines 580-586), with a
structural fuel parameter: pop the head, walk depth-first from it over the
current working list, remove the discovered objects, recurse; concatenate
the per-root sequences.  Fuel `complete_list.length` is always enough,
because every round removes at least its root from the working list
(`removeDiscovered_sdf_length_lt`). -/
def sort_rounds_fuel (env : GeomEnv) : Nat → List CurveObject → List CurveObject
  | 0, _ => []
  | _ + 1, [] => []
  | n + 1, x :: xs =>
    let discovered := sort_depth_first env (x :: xs).length (x :: xs) x []
    discovered ++ sort_rounds_fuel env n (removeDiscovered discovered (x :: xs))

def sort_rounds (env : GeomEnv) (complete_list : List CurveObject) : List CurveObject :=
  sort_rounds_fuel env complete_list.length complete_list

theorem sort_rounds_fuel_nil (env : GeomEnv) (n : Nat) :
    sort_rounds_fuel env n [] = [] := by
  cases n <;> rfl

theorem sort_rounds_fuel_cons (env : GeomEnv) (n : Nat) (x : CurveObject)
    (xs : List CurveObject) :
    sort_rounds_fuel env (n + 1) (x :: xs) =
      sort_depth_first env (x :: xs).length (x :: xs) x [] ++
        sort_rounds_fuel env n
          (removeDiscovered (sort_depth_first env (x :: xs).length (x :: xs) x [])
            (x :: xs)) := rfl

/-- Any two sufficient fuel values give the same rounds. -/
theorem sort_rounds_fuel_congr (env : GeomEnv) :
    ∀ n m (l : List CurveObject), l.length ≤ n → l.length ≤ m →
      sort_rounds_fuel env n l = sort_rounds_fuel env m l := by
  intro n
  induction n with
  | zero =>
    intro m l hn _
    have : l = [] := List.eq_nil_of_length_eq_zero (Nat.le_zero.mp hn)
    subst this
    rw [sort_rounds_fuel_nil, sort_rounds_fuel_nil]
  | succ n ihn =>
    intro m l hn hm
    match l with
    | [] => rw [sort_rounds_fuel_nil, sort_rounds_fuel_nil]
    | x :: xs =>
      match m, hm with
      | m + 1, hm =>
        rw [sort_rounds_fuel_cons, sort_rounds_fuel_cons]
        have hlt := removeDiscovered_sdf_length_lt env x xs
        rw [ihn m (removeDiscovered
          (sort_depth_first env (x :: xs).length (x :: xs) x []) (x :: xs))
          (by simp only [List.length_cons] at hn hlt ⊢; omega)
          (by simp only [List.length_cons] at hm hlt ⊢; omega)]

theorem sort_rounds_nil (env : GeomEnv) : sort_rounds env [] = [] := rfl

theorem sort_rounds_cons (env : GeomEnv) (x : CurveObject) (xs : List CurveObject) :
    sort_rounds env (x :: xs) =
      sort_depth_first env (x :: xs).length (x :: xs) x [] ++
        sort_rounds env
          (removeDiscovered (sort_depth_first env (x :: xs).length (x :: xs) x [])
            (x :: xs)) := by
  unfold sort_rounds
  rw [show (x :: xs).length = xs.length + 1 from rfl, sort_rounds_fuel_cons]
  have hlt := removeDiscovered_sdf_length_lt env x xs
  rw [sort_rounds_fuel_congr env xs.length _ _
    (by simp only [List.length_cons] at hlt ⊢; omega) le_rfl]
  rfl

/-- The round loop emits a permutation of its working list. -/
theorem sort_rounds_perm (env : GeomEnv) : ∀ l, (sort_rounds env l).Perm l := by
  have main : ∀ n l, l.length ≤ n → (sort_rounds env l).Perm l := by
    intro n
    induction n with
    | zero =>
      intro l hl
      have : l = [] := List.eq_nil_of_length_eq_zero (Nat.le_zero.mp hl)
      subst this
      rw [sort_rounds_nil]
    | succ n ih =>
      intro l hl
      match l with
      | [] => rw [sort_rounds_nil]
      | x :: xs =>
        rw [sort_rounds_cons]
        have hN : (sort_depth_first env (x :: xs).length (x :: xs) x []).Nodup :=
          (sdf_nodup env _).1 _ _ _ (List.not_mem_nil x) List.nodup_nil
        have hsub : ∀ y ∈ sort_depth_first env (x :: xs).length (x :: xs) x [],
            y ∈ x :: xs := by
          intro y hy
          rcases (sdf_subset env _).1 _ _ _ y hy with h | h | h
          · exact absurd h (List.not_mem_nil y)
          · exact h ▸ List.mem_cons_self x xs
          · exact h
        have hlt := removeDiscovered_sdf_length_lt env x xs
        have hrec := ih
          (removeDiscovered (sort_depth_first env (x :: xs).length (x :: xs) x [])
            (x :: xs)) (by omega)
        refine (hrec.append_left _).trans ?_
        rw [removeDiscovered_eq_diff]
        exact append_diff_perm_of_nodup_subset hN hsub
  intro l
  exact main l.length l le_rfl

/-! ### The dispersal (alternative) sort for acrylic (source lines 559-573)

`split_list = [curves_open[i::5] for i in xrange(5)]` followed by the
double loop that concatenates the five groups in order. -/

/-- `l[0::5]`: every 5th element starting from the head. -/
def sliceStep5 {α : Type} : List α → List α
  | [] => []
  | a :: rest => a :: sliceStep5 (rest.drop 4)
termination_by l => l.length
decreasing_by
  simp only [List.length_drop, List.length_cons]
  omega

theorem sliceStep5_nil {α : Type} : sliceStep5 ([] : List α) = [] := by
  rw [sliceStep5]

theorem sliceStep5_cons {α : Type} (a : α) (rest : List α) :
    sliceStep5 (a :: rest) = a :: sliceStep5 (rest.drop 4) := by
  rw [sliceStep5]

/-- `curves_open[0::5] + curves_open[1::5] + ... + curves_open[4::5]`,
the concatenation the alternative sort builds (source lines 567-573,
`list_range = 5`). -/
def dispersal_split {α : Type} (l : List α) : List α :=
  sliceStep5 l ++ sliceStep5 (l.drop 1) ++ sliceStep5 (l.drop 2) ++
    sliceStep5 (l.drop 3) ++ sliceStep5 (l.drop 4)

theorem dispersal_split_perm {α : Type} (l : List α) : (dispersal_split l).Perm l := by
  induction l with
  | nil => simp [dispersal_split, sliceStep5_nil]
  | cons a t ih =>
    have h0 : sliceStep5 (a :: t) = a :: sliceStep5 (t.drop 4) := sliceStep5_cons a t
    have hstep : dispersal_split (a :: t) =
        a :: (sliceStep5 (t.drop 4) ++
          (sliceStep5 t ++ sliceStep5 (t.drop 1) ++ sliceStep5 (t.drop 2) ++
            sliceStep5 (t.drop 3))) := by
      simp only [dispersal_split, h0, List.drop_succ_cons, List.drop_zero,
        List.cons_append, List.append_assoc]
    rw [hstep]
    refine List.Perm.cons a ?_ |>.trans (ih.cons a)
    have hcomm : (sliceStep5 (t.drop 4) ++
        (sliceStep5 t ++ sliceStep5 (t.drop 1) ++ sliceStep5 (t.drop 2) ++
          sliceStep5 (t.drop 3))).Perm
        ((sliceStep5 t ++ sliceStep5 (t.drop 1) ++ sliceStep5 (t.drop 2) ++
          sliceStep5 (t.drop 3)) ++ sliceStep5 (t.drop 4)) :=
      List.perm_append_comm
    refine hcomm.trans ?_
    simp only [dispersal_split, List.append_assoc]
    exact List.Perm.refl _

/-! ### `sort_advanced` (source lines 503-591) -/

/-- Steps 2 of §4.1 (source lines 535-548): sort the closed descriptors by
the secondary key `(start x, start y)` descending, then (stably) by the
primary key `area` descending. -/
def sort_closed_curves (l : List CurveObject) : List CurveObject :=
  List.insertionSort area_desc (List.insertionSort xy_desc l)

/-- `sort_advanced(object_list, material_data)` (source lines 503-591).
The acrylic `MessageBox` dialogue that chooses the alternative sort is
abstracted into the Boolean `alternative_sort`; the kernel containment
query is the `env` oracle.  Steps: partition closed/open (lines 529-533),
sort closed (lines 535-548), sort open — plain descending or the
dispersal interleave (lines 550-573) —, concatenate (line 577), run the
depth-first round loop (lines 580-586), and reverse (line 589). -/
def sort_advanced (env : GeomEnv) (alternative_sort : Bool)
    (object_list : List CurveObject) : List CurveObject :=
  let curves_closed := object_list.filter (fun e => e.closed)
  let curves_open := object_list.filter (fun e => !e.closed)
  let curves_closed := sort_closed_curves curves_closed
  let curves_open :=
    if alternative_sort = false then List.insertionSort xy_desc curves_open
    else dispersal_split (List.insertionSort xy_desc curves_open)
  let complete_list := curves_closed ++ curves_open
  (sort_rounds env complete_list).reverse

theorem sort_closed_curves_perm (l : List CurveObject) :
    (sort_closed_curves l).Perm l :=
  (List.perm_insertionSort area_desc _).trans (List.perm_insertionSort xy_desc l)

/-- C10: `sort_advanced` returns a permutation of its input, with or
without the alternative dispersal sort. -/
theorem sort_advanced_perm (env : GeomEnv) (alternative_sort : Bool)
    (object_list : List CurveObject) :
    (sort_advanced env alternative_sort object_list).Perm object_list := by
  unfold sort_advanced
  refine (List.reverse_perm _).trans ?_
  refine (sort_rounds_perm env _).trans ?_
  have hopen : (if alternative_sort = false
      then List.insertionSort xy_desc (object_list.filter (fun e => !e.closed))
      else dispersal_split
        (List.insertionSort xy_desc (object_list.filter (fun e => !e.closed)))).Perm
      (object_list.filter (fun e => !e.closed)) := by
    by_cases h : alternative_sort = false
    · rw [if_pos h]
      exact List.perm_insertionSort xy_desc _
    · rw [if_neg h]
      exact (dispersal_split_perm _).trans (List.perm_insertionSort xy_desc _)
  refine ((sort_closed_curves_perm _).append hopen).trans ?_
  exact List.filter_append_perm _ object_list

/-! ### Stability of the two-pass sort (for C7)

Python's `sorted` is stable, so sorting by the secondary key first
(source lines 537-541) and then by the primary key (lines 543-548)
produces a list sorted lexicographically by (primary, secondary).
`List.insertionSort` is stable in the same sense; `lexRel` below is the
combined order witnessed after the second pass. -/

/-- After stably sorting an `S`-sorted list by `R`: earlier elements are
either strictly below in `R`, or `R`-equivalent and related by `S`. -/
def lexRel {α : Type} (R S : α → α → Prop) (a b : α) : Prop :=
  (R a b ∧ ¬ R b a) ∨ (R a b ∧ R b a ∧ S a b)

theorem orderedInsert_pairwise_lex {α : Type} (R S : α → α → Prop) [DecidableRel R]
    (Rtotal : ∀ a b, R a b ∨ R b a) (Rtrans : ∀ a b c, R a b → R b c → R a c) :
    ∀ (m : List α) (a : α), m.Pairwise (lexRel R S) → (∀ b ∈ m, S a b) →
      (m.orderedInsert R a).Pairwise (lexRel R S) := by
  intro m
  induction m with
  | nil =>
    intro a _ _
    simp [List.orderedInsert]
  | cons b bs ih =>
    intro a hm ha
    rw [List.orderedInsert]
    by_cases hr : R a b
    · rw [if_pos hr]
      refine List.Pairwise.cons ?_ hm
      intro c hc
      rcases List.mem_cons.mp hc with rfl | hc2
      · by_cases hba : R c a
        · exact Or.inr ⟨hr, hba, ha c (List.mem_cons_self c bs)⟩
        · exact Or.inl ⟨hr, hba⟩
      · have hbc : R b c := by
          rcases (List.pairwise_cons.mp hm).1 c hc2 with ⟨h1, _⟩ | ⟨h1, _⟩ <;> exact h1
        have hac : R a c := Rtrans a b c hr hbc
        by_cases hca : R c a
        · exact Or.inr ⟨hac, hca, ha c (List.mem_cons_of_mem b hc2)⟩
        · exact Or.inl ⟨hac, hca⟩
    · rw [if_neg hr]
      have hba : R b a := (Rtotal a b).resolve_left hr
      refine List.Pairwise.cons ?_
        (ih a (List.pairwise_cons.mp hm).2 (fun c hc => ha c (List.mem_cons_of_mem b hc)))
      intro c hc
      rcases (List.mem_orderedInsert R).mp hc with rfl | hc2
      · exact Or.inl ⟨hba, hr⟩
      · exact (List.pairwise_cons.mp hm).1 c hc2

theorem insertionSort_pairwise_lex {α : Type} (R S : α → α → Prop) [DecidableRel R]
    (Rtotal : ∀ a b, R a b ∨ R b a) (Rtrans : ∀ a b c, R a b → R b c → R a c) :
    ∀ l : List α, l.Pairwise S → (List.insertionSort R l).Pairwise (lexRel R S) := by
  intro l
  induction l with
  | nil => intro _; simp [List.insertionSort]
  | cons a l ih =>
    intro hl
    rw [List.insertionSort]
    refine orderedInsert_pairwise_lex R S Rtotal Rtrans _ a
      (ih (List.pairwise_cons.mp hl).2) ?_
    intro b hb
    exact (List.pairwise_cons.mp hl).1 b ((List.mem_insertionSort R).mp hb)

/-- `b`'s area is strictly below `a`'s in Python 2's ordering
(`None` below every number). -/
def area_strict_gt (a b : CurveObject) : Prop :=
  optQLe b.area a.area ∧ ¬ optQLe a.area b.area

theorem sort_closed_curves_sorted_area (l : List CurveObject) :
    (sort_closed_curves l).Pairwise area_desc :=
  List.sorted_insertionSort area_desc (List.insertionSort xy_desc l)

/-- C7: before the depth-first traversal begins, `sort_advanced` orders the
closed descriptors by area descending as primary key, ties broken by
`(start_point.x, start_point.y)` descending as secondary key — in the
sorted closed list every earlier element has strictly larger area (so among
distinct areas the larger shape is discovered first in the working list),
or equal area and a lexicographically ≥ start point — and the sorted list
is a permutation of the closed descriptors. -/
theorem c7_closed_area_ordering (l : List CurveObject) :
    (sort_closed_curves l).Pairwise
      (fun a b => area_strict_gt a b ∨ (a.area = b.area ∧ xy_desc a b)) ∧
    (sort_closed_curves l).Perm l := by
  constructor
  · have hxy : (List.insertionSort xy_desc l).Pairwise xy_desc :=
      List.sorted_insertionSort xy_desc l
    have hlex := insertionSort_pairwise_lex area_desc xy_desc
      (fun a b => IsTotal.total a b) (fun a b c h1 h2 => IsTrans.trans a b c h1 h2)
      (List.insertionSort xy_desc l) hxy
    refine hlex.imp ?_
    intro a b h
    rcases h with ⟨h1, h2⟩ | ⟨h1, h2, h3⟩
    · exact Or.inl ⟨h1, h2⟩
    · exact Or.inr ⟨optQLe_antisymm h2 h1, h3⟩
  · exact sort_closed_curves_perm l

/-! ### Positions in a list

`Precedes y x l`: `y` occurs strictly before (some occurrence of) `x`
in `l`.  The discovered list only grows by appending, which makes this
relation stable under every step of the walk. -/

def Precedes {α : Type} (y x : α) (l : List α) : Prop :=
  ∃ l₁ l₂, l = l₁ ++ x :: l₂ ∧ y ∈ l₁

theorem Precedes.mem_left {α : Type} {y x : α} {l : List α} (h : Precedes y x l) :
    y ∈ l := by
  obtain ⟨l₁, l₂, rfl, hy⟩ := h
  exact List.mem_append.mpr (Or.inl hy)

theorem Precedes.mem_right {α : Type} {y x : α} {l : List α} (h : Precedes y x l) :
    x ∈ l := by
  obtain ⟨l₁, l₂, rfl, _⟩ := h
  exact List.mem_append.mpr (Or.inr (List.mem_cons_self x l₂))

theorem Precedes.append_right {α : Type} {y x : α} {l : List α} (h : Precedes y x l)
    (e : List α) : Precedes y x (l ++ e) := by
  obtain ⟨l₁, l₂, rfl, hy⟩ := h
  exact ⟨l₁, l₂ ++ e, by rw [List.append_assoc, List.cons_append], hy⟩

theorem Precedes.append_left {α : Type} {y x : α} {l : List α} (h : Precedes y x l)
    (e : List α) : Precedes y x (e ++ l) := by
  obtain ⟨l₁, l₂, rfl, hy⟩ := h
  exact ⟨e ++ l₁, l₂, by rw [List.append_assoc], List.mem_append.mpr (Or.inr hy)⟩

theorem precedes_append_singleton {α : Type} {y v : α} {l : List α} (hy : y ∈ l) :
    Precedes y v (l ++ [v]) :=
  ⟨l, [], rfl, hy⟩

theorem Precedes.reverse {α : Type} {y x : α} {l : List α} (h : Precedes y x l) :
    Precedes x y l.reverse := by
  obtain ⟨l₁, l₂, rfl, hy⟩ := h
  obtain ⟨a₁, a₂, rfl⟩ := List.append_of_mem hy
  refine ⟨l₂.reverse ++ x :: a₂.reverse, a₁.reverse, ?_, ?_⟩
  · simp [List.reverse_append]
  · exact List.mem_append.mpr (Or.inr (List.mem_cons_self x a₂.reverse))

theorem Precedes.indexOf_lt {α : Type} [DecidableEq α] {y x : α} {l : List α}
    (h : Precedes y x l) (hnd : l.Nodup) : l.indexOf y < l.indexOf x := by
  obtain ⟨l₁, l₂, rfl, hy⟩ := h
  have hx1 : x ∉ l₁ := by
    intro hx
    exact (List.disjoint_of_nodup_append hnd) hx (List.mem_cons_self x l₂)
  rw [List.indexOf_append_of_mem hy, List.indexOf_append_of_not_mem hx1,
    List.indexOf_cons_self]
  have := List.indexOf_lt_length.mpr hy
  omega

/-! ### Fuel accounting for the depth-first walk -/

/-- The number of working-list members not yet discovered. -/
def remCount (g d : List CurveObject) : Nat :=
  (g.filter (fun z => decide (z ∉ d))).length

theorem remCount_nil_right (g : List CurveObject) : remCount g [] = g.length := by
  unfold remCount
  simp

theorem remCount_le_of_subset {d d' : List CurveObject} (g : List CurveObject)
    (h : ∀ x ∈ d, x ∈ d') : remCount g d' ≤ remCount g d := by
  unfold remCount
  induction g with
  | nil => simp
  | cons a g ih =>
    rw [List.filter_cons, List.filter_cons]
    by_cases had : a ∈ d
    · rw [if_neg (by simp [h a had]), if_neg (by simp [had])]
      exact ih
    · by_cases had' : a ∈ d'
      · rw [if_neg (by simp [had']), if_pos (by simp [had])]
        exact Nat.le_succ_of_le ih
      · rw [if_pos (by simp [had']), if_pos (by simp [had])]
        simpa using ih

theorem remCount_append_singleton_lt {g d : List CurveObject} {v : CurveObject}
    (hv : v ∈ g) (hnd : v ∉ d) : remCount g (d ++ [v]) < remCount g d := by
  unfold remCount
  induction g with
  | nil => cases hv
  | cons a g ih =>
    rw [List.filter_cons, List.filter_cons]
    by_cases hav : a = v
    · subst hav
      rw [if_neg (by simp), if_pos (by simp [hnd])]
      have hmono : (g.filter (fun z => decide (z ∉ d ++ [a]))).length ≤
          (g.filter (fun z => decide (z ∉ d))).length :=
        remCount_le_of_subset g (fun x hx => List.mem_append.mpr (Or.inl hx))
      simp only [List.length_cons]
      omega
    · have hv2 : v ∈ g := by
        rcases List.mem_cons.mp hv with h | h
        · exact absurd h.symm hav
        · exact h
      by_cases had : a ∈ d
      · rw [if_neg (by simp [had]), if_neg (by simp [had])]
        exact ih hv2
      · rw [if_pos (by simp [had, hav]), if_pos (by simp [had])]
        simp only [List.length_cons]
        exact Nat.succ_lt_succ (ih hv2)

/-! ### The discovered-list invariant of the depth-first walk

`DfsInv env g d`: the discovered list `d` has no duplicates, draws its
members from the working list `g`, and — the key ordering fact — every
already-discovered vertex was discovered after every member of `g` that
contains it. -/

def DfsInv (env : GeomEnv) (g d : List CurveObject) : Prop :=
  d.Nodup ∧ (∀ x ∈ d, x ∈ g) ∧
    (∀ x ∈ d, ∀ y ∈ g, contains_rule env y x = true → Precedes y x d)

theorem dfsInv_nil (env : GeomEnv) (g : List CurveObject) : DfsInv env g [] :=
  ⟨List.nodup_nil, by simp, by simp⟩

theorem dfsInv_append {env : GeomEnv} {g d : List CurveObject} {v : CurveObject}
    (hInv : DfsInv env g d) (hvg : v ∈ g) (hvd : v ∉ d)
    (hJ : ∀ y ∈ g, contains_rule env y v = true → y ∈ d) :
    DfsInv env g (d ++ [v]) := by
  obtain ⟨hnd, hsub, hord⟩ := hInv
  refine ⟨by simp [List.nodup_append, hnd, hvd], ?_, ?_⟩
  · intro x hx
    rcases List.mem_append.mp hx with h | h
    · exact hsub x h
    · exact (List.mem_singleton.mp h) ▸ hvg
  · intro x hx y hy hyx
    rcases List.mem_append.mp hx with h | h
    · exact (hord x h y hy hyx).append_right [v]
    · have hxv := List.mem_singleton.mp h
      subst hxv
      exact precedes_append_singleton (hJ y hy hyx)

/-- When the children loop of a closed vertex `W` reaches child `c`, every
working-list member containing `c` is already discovered.  This is where
laminarity (`HLam`) and the parent-before-child order of the working list
(`HO`) enter: a second parent `y` of `c` is either `W` itself, an ancestor
of `W` (discovered before `W` by the invariant), or an earlier child of
`W` (already processed). -/
theorem child_justified {env : GeomEnv} {g d pre cs2 : List CurveObject}
    {W c : CurveObject}
    (HLam : ∀ p ∈ g, ∀ q ∈ g, ∀ x ∈ g, contains_rule env p x = true →
      contains_rule env q x = true →
      p = q ∨ contains_rule env p q = true ∨ contains_rule env q p = true)
    (HO : g.Pairwise (fun a b => contains_rule env b a = false))
    (hWd : W ∈ d) (hInv : DfsInv env g d) (hWcl : W.closed = true)
    (hfilter : g.filter (fun cand => isChildOf env W cand) = pre ++ c :: cs2)
    (hpre : ∀ y ∈ pre, y ∈ d) :
    ∀ y ∈ g, contains_rule env y c = true → y ∈ d := by
  intro y hy hyc
  have hWg : W ∈ g := hInv.2.1 W hWd
  have hcmem : c ∈ g.filter (fun cand => isChildOf env W cand) := by
    rw [hfilter]
    exact List.mem_append.mpr (Or.inr (List.mem_cons_self c cs2))
  have hcg : c ∈ g := List.mem_of_mem_filter hcmem
  have hcW : isChildOf env W c = true := by simpa using List.of_mem_filter hcmem
  have hWc : contains_rule env W c = true := by
    unfold contains_rule
    rw [hWcl, hcW]
    rfl
  by_cases hyW : y = W
  · exact hyW ▸ hWd
  · rcases HLam y hy W hWg c hcg hyc hWc with h | h | h
    · exact absurd h hyW
    · exact (hInv.2.2 W hWd y hy h).mem_left
    · have hyW_child : isChildOf env W y = true := by
        unfold contains_rule at h
        simp only [Bool.and_eq_true] at h
        exact h.2
      have hymem : y ∈ pre ++ c :: cs2 := by
        rw [← hfilter]
        exact List.mem_filter.mpr ⟨hy, by simpa using hyW_child⟩
      rcases List.mem_append.mp hymem with h2 | h2
      · exact hpre y h2
      · rcases List.mem_cons.mp h2 with h3 | h3
        · subst h3
          rw [contains_rule_irrefl] at hyc
          exact absurd hyc (by simp)
        · have hpair : (pre ++ c :: cs2).Pairwise
              (fun a b => contains_rule env b a = false) := by
            rw [← hfilter]
            exact HO.sublist (List.filter_sublist g)
          have hfalse : contains_rule env y c = false :=
            (List.pairwise_cons.mp (List.pairwise_append.mp hpair).2.1).1 y h3
          rw [hfalse] at hyc
          exact absurd hyc (by simp)

/-- Invariant preservation through the children loop, assuming invariant
preservation of the walk itself at the same fuel level (`hP`). -/
theorem sdf_children_invariant_of (env : GeomEnv) (g : List CurveObject)
    (HLam : ∀ p ∈ g, ∀ q ∈ g, ∀ x ∈ g, contains_rule env p x = true →
      contains_rule env q x = true →
      p = q ∨ contains_rule env p q = true ∨ contains_rule env q p = true)
    (HO : g.Pairwise (fun a b => contains_rule env b a = false))
    (fuel : Nat)
    (hP : ∀ v d, v ∈ g → v ∉ d → DfsInv env g d →
      (∀ y ∈ g, contains_rule env y v = true → y ∈ d) →
      remCount g d ≤ fuel →
      (d ++ [v]) <+: sort_depth_first env fuel g v d ∧
      DfsInv env g (sort_depth_first env fuel g v d) ∧
      (∀ x ∈ sort_depth_first env fuel g v d, x ∉ d →
        ∀ y ∈ g, contains_rule env x y = true →
          y ∈ sort_depth_first env fuel g v d)) :
    ∀ (cs : List CurveObject) (W : CurveObject) (pre d : List CurveObject),
      W ∈ d → DfsInv env g d → W.closed = true →
      g.filter (fun cand => isChildOf env W cand) = pre ++ cs →
      (∀ y ∈ pre, y ∈ d) →
      remCount g d ≤ fuel →
      d <+: sdf_children env fuel g cs d ∧
      DfsInv env g (sdf_children env fuel g cs d) ∧
      (∀ c ∈ cs, c ∈ sdf_children env fuel g cs d) ∧
      (∀ x ∈ sdf_children env fuel g cs d, x ∉ d →
        ∀ y ∈ g, contains_rule env x y = true →
          y ∈ sdf_children env fuel g cs d) := by
  intro cs
  induction cs with
  | nil =>
    intro W pre d hWd hInv hWcl hfilter hpre hfuel
    rw [sdf_children_nil]
    exact ⟨List.prefix_refl d, hInv, by simp, fun x hx hxd => absurd hx hxd⟩
  | cons c cs2 ih =>
    intro W pre d hWd hInv hWcl hfilter hpre hfuel
    by_cases hc : c ∈ d
    · rw [sdf_children_cons_mem env fuel g hc cs2]
      have hfilter2 : g.filter (fun cand => isChildOf env W cand) = (pre ++ [c]) ++ cs2 := by
        rw [hfilter, List.append_assoc, List.singleton_append]
      have hpre2 : ∀ y ∈ pre ++ [c], y ∈ d := by
        intro y hy
        rcases List.mem_append.mp hy with h | h
        · exact hpre y h
        · exact (List.mem_singleton.mp h) ▸ hc
      obtain ⟨h1, h2, h3, h4⟩ := ih W (pre ++ [c]) d hWd hInv hWcl hfilter2 hpre2 hfuel
      refine ⟨h1, h2, ?_, h4⟩
      intro x hx
      rcases List.mem_cons.mp hx with h | h
      · exact h ▸ h1.subset hc
      · exact h3 x h
    · rw [sdf_children_cons_not_mem env fuel g hc cs2]
      have hcmem : c ∈ g.filter (fun cand => isChildOf env W cand) := by
        rw [hfilter]
        exact List.mem_append.mpr (Or.inr (List.mem_cons_self c cs2))
      have hcg : c ∈ g := List.mem_of_mem_filter hcmem
      have hJc : ∀ y ∈ g, contains_rule env y c = true → y ∈ d :=
        child_justified HLam HO hWd hInv hWcl hfilter hpre
      obtain ⟨hpre', hInv', hclos'⟩ := hP c d hcg hc hInv hJc hfuel
      have hsub' : ∀ x ∈ d, x ∈ sort_depth_first env fuel g c d := by
        intro x hx
        exact hpre'.subset (List.mem_append.mpr (Or.inl hx))
      have hfilter2 : g.filter (fun cand => isChildOf env W cand) = (pre ++ [c]) ++ cs2 := by
        rw [hfilter, List.append_assoc, List.singleton_append]
      have hcd' : c ∈ sort_depth_first env fuel g c d :=
        hpre'.subset (List.mem_append.mpr (Or.inr (List.mem_singleton.mpr rfl)))
      have hpre2 : ∀ y ∈ pre ++ [c], y ∈ sort_depth_first env fuel g c d := by
        intro y hy
        rcases List.mem_append.mp hy with h | h
        · exact hsub' y (hpre y h)
        · exact (List.mem_singleton.mp h) ▸ hcd'
      have hfuel2 : remCount g (sort_depth_first env fuel g c d) ≤ fuel :=
        le_trans (remCount_le_of_subset g hsub') hfuel
      obtain ⟨hpre'', hInv'', hcs'', hclos''⟩ :=
        ih W (pre ++ [c]) (sort_depth_first env fuel g c d)
          (hsub' W hWd) hInv' hWcl hfilter2 hpre2 hfuel2
      refine ⟨?_, hInv'', ?_, ?_⟩
      · exact ((List.prefix_append d [c]).trans hpre').trans hpre''
      · intro x hx
        rcases List.mem_cons.mp hx with h | h
        · exact h ▸ hpre''.subset hcd'
        · exact hcs'' x h
      · intro x hx hxd y hy hxy
        by_cases hxd' : x ∈ sort_depth_first env fuel g c d
        · exact hpre''.subset (hclos' x hxd' hxd y hy hxy)
        · exact hclos'' x hx hxd' y hy hxy

/-- Main invariant of the depth-first walk (source lines 594-613), by
induction on fuel: starting a walk at `v` — with every parent of `v`
already discovered — extends the discovered list, preserves `DfsInv`, and
leaves every newly discovered vertex with all its children (from the
working list) discovered as well. -/
theorem sdf_invariant (env : GeomEnv) (g : List CurveObject)
    (HLam : ∀ p ∈ g, ∀ q ∈ g, ∀ x ∈ g, contains_rule env p x = true →
      contains_rule env q x = true →
      p = q ∨ contains_rule env p q = true ∨ contains_rule env q p = true)
    (HO : g.Pairwise (fun a b => contains_rule env b a = false)) :
    ∀ fuel : Nat, ∀ v d, v ∈ g → v ∉ d → DfsInv env g d →
      (∀ y ∈ g, contains_rule env y v = true → y ∈ d) →
      remCount g d ≤ fuel →
      (d ++ [v]) <+: sort_depth_first env fuel g v d ∧
      DfsInv env g (sort_depth_first env fuel g v d) ∧
      (∀ x ∈ sort_depth_first env fuel g v d, x ∉ d →
        ∀ y ∈ g, contains_rule env x y = true →
          y ∈ sort_depth_first env fuel g v d) := by
  intro fuel
  induction fuel with
  | zero =>
    intro v d hvg hvd _ _ hfuel
    exfalso
    have hnil : g.filter (fun z => decide (z ∉ d)) = [] :=
      List.length_eq_zero.mp (Nat.le_zero.mp hfuel)
    have : v ∈ g.filter (fun z => decide (z ∉ d)) :=
      List.mem_filter.mpr ⟨hvg, by simp [hvd]⟩
    rw [hnil] at this
    exact absurd this (List.not_mem_nil v)
  | succ f ihf =>
    intro v d hvg hvd hInv hJ hfuel
    have hInv' : DfsInv env g (d ++ [v]) := dfsInv_append hInv hvg hvd hJ
    have hfuel' : remCount g (d ++ [v]) ≤ f := by
      have := remCount_append_singleton_lt hvg hvd
      omega
    by_cases hcl : v.closed = true
    · rw [sort_depth_first_succ_closed env hcl]
      have hvd' : v ∈ d ++ [v] :=
        List.mem_append.mpr (Or.inr (List.mem_singleton.mpr rfl))
      obtain ⟨h1, h2, h3, h4⟩ :=
        sdf_children_invariant_of env g HLam HO f (ihf)
          (g.filter (fun cand => isChildOf env v cand)) v [] (d ++ [v])
          hvd' hInv' hcl (by rw [List.nil_append]) (by simp) hfuel'
      refine ⟨h1, h2, ?_⟩
      intro x hx hxd y hy hxy
      by_cases hxv : x = v
      · subst hxv
        have hychild : isChildOf env x y = true := by
          unfold contains_rule at hxy
          simp only [Bool.and_eq_true] at hxy
          exact hxy.2
        exact h3 y (List.mem_filter.mpr ⟨hy, by simpa using hychild⟩)
      · have hxdv : x ∉ d ++ [v] := by
          intro hmem
          rcases List.mem_append.mp hmem with h | h
          · exact hxd h
          · exact hxv (List.mem_singleton.mp h)
        exact h4 x hx hxdv y hy hxy
    · rw [sort_depth_first_succ_open env (Bool.not_eq_true _ ▸ hcl)]
      refine ⟨List.prefix_refl _, hInv', ?_⟩
      intro x hx hxd y hy hxy
      exfalso
      have hxv : x = v := by
        rcases List.mem_append.mp hx with h | h
        · exact absurd h hxd
        · exact List.mem_singleton.mp h
      subst hxv
      exact hcl (contains_rule_closed hxy)

/-- Across the whole round loop: if the working list is laminar and lists
parents before children, then every parent is emitted before each of its
children in the (pre-reversal) output of `sort_rounds`. -/
theorem sort_rounds_parent_first (env : GeomEnv) :
    ∀ g : List CurveObject,
      (∀ p ∈ g, ∀ q ∈ g, ∀ x ∈ g, contains_rule env p x = true →
        contains_rule env q x = true →
        p = q ∨ contains_rule env p q = true ∨ contains_rule env q p = true) →
      g.Pairwise (fun a b => contains_rule env b a = false) →
      ∀ A B, A ∈ g → B ∈ g → contains_rule env A B = true →
        Precedes A B (sort_rounds env g) := by
  have main : ∀ n : Nat, ∀ g : List CurveObject, g.length ≤ n →
      (∀ p ∈ g, ∀ q ∈ g, ∀ x ∈ g, contains_rule env p x = true →
        contains_rule env q x = true →
        p = q ∨ contains_rule env p q = true ∨ contains_rule env q p = true) →
      g.Pairwise (fun a b => contains_rule env b a = false) →
      ∀ A B, A ∈ g → B ∈ g → contains_rule env A B = true →
        Precedes A B (sort_rounds env g) := by
    intro n
    induction n with
    | zero =>
      intro g hg _ _ A B hA _ _
      have : g = [] := List.eq_nil_of_length_eq_zero (Nat.le_zero.mp hg)
      subst this
      exact absurd hA (List.not_mem_nil A)
    | succ n ihn =>
      intro g hg HLam HO A B hA hB hAB
      match g, hg with
      | x :: xs, hg =>
        have hJx : ∀ y ∈ x :: xs, contains_rule env y x = true → y ∈ ([] : List CurveObject) := by
          intro y hy hyx
          exfalso
          rcases List.mem_cons.mp hy with h | h
          · subst h
            rw [contains_rule_irrefl] at hyx
            exact absurd hyx (by simp)
          · have := (List.pairwise_cons.mp HO).1 y h
            rw [this] at hyx
            exact absurd hyx (by simp)
        obtain ⟨hpre, hInvD, hclosD⟩ :=
          sdf_invariant env (x :: xs) HLam HO (x :: xs).length x []
            (List.mem_cons_self x xs) (List.not_mem_nil x) (dfsInv_nil env _)
            hJx (by rw [remCount_nil_right])
        rw [sort_rounds_cons]
        by_cases hBD : B ∈ sort_depth_first env (x :: xs).length (x :: xs) x []
        · exact (hInvD.2.2 B hBD A hA hAB).append_right _
        · have hAD : A ∉ sort_depth_first env (x :: xs).length (x :: xs) x [] := by
            intro hAD
            exact hBD (hclosD A hAD (List.not_mem_nil A) B hB hAB)
          have hdiff :
              removeDiscovered (sort_depth_first env (x :: xs).length (x :: xs) x [])
                (x :: xs) =
              (x :: xs).diff (sort_depth_first env (x :: xs).length (x :: xs) x []) :=
            removeDiscovered_eq_diff _ _
          have hsubdiff :
              ∀ z ∈ removeDiscovered
                (sort_depth_first env (x :: xs).length (x :: xs) x []) (x :: xs),
                z ∈ x :: xs := by
            intro z hz
            rw [hdiff] at hz
            exact (List.diff_sublist _ _).subset hz
          have hA' : A ∈ removeDiscovered
              (sort_depth_first env (x :: xs).length (x :: xs) x []) (x :: xs) := by
            rw [hdiff]
            exact List.mem_diff_of_mem hA hAD
          have hB' : B ∈ removeDiscovered
              (sort_depth_first env (x :: xs).length (x :: xs) x []) (x :: xs) := by
            rw [hdiff]
            exact List.mem_diff_of_mem hB hBD
          have hlt := removeDiscovered_sdf_length_lt env x xs
          have hrec := ihn
            (removeDiscovered (sort_depth_first env (x :: xs).length (x :: xs) x [])
              (x :: xs))
            (by omega)
            (fun p hp q hq c hc => HLam p (hsubdiff p hp) q (hsubdiff q hq) c (hsubdiff c hc))
            (by rw [hdiff]; exact HO.sublist (List.diff_sublist _ _))
            A B hA' hB' hAB
          exact hrec.append_left _
  intro g HLam HO A B hA hB hAB
  exact main g.length g le_rfl HLam HO A B hA hB hAB

instance : ∀ a b, Decidable (area_strict_gt a b) := fun a b => by
  unfold area_strict_gt
  infer_instance

/-- The open part of the working list built by `sort_advanced`
(lines 550-573) is a permutation of the open descriptors. -/
theorem open_part_perm (alternative_sort : Bool) (object_list : List CurveObject) :
    (if alternative_sort = false
      then List.insertionSort xy_desc (object_list.filter (fun e => !e.closed))
      else dispersal_split
        (List.insertionSort xy_desc (object_list.filter (fun e => !e.closed)))).Perm
      (object_list.filter (fun e => !e.closed)) := by
  by_cases h : alternative_sort = false
  · rw [if_pos h]
    exact List.perm_insertionSort xy_desc _
  · rw [if_neg h]
    exact (dispersal_split_perm _).trans (List.perm_insertionSort xy_desc _)

/-- C1 (amended): assuming the input descriptors are pairwise distinct,
the §4.1 containment relation on them is laminar (two containers of a
common descriptor are equal or one contains the other), and a container
has strictly larger area than any closed descriptor it contains, then for
any pair where `A` contains `B`, `sort_advanced` places `B` strictly later
than `A` in the pre-reversal depth-first order, and therefore strictly
earlier than `A` in the final (reversed) returned order.  (Without the
laminarity assumption the claim is false: see `c1_counterexample`.) -/
theorem c1_parent_contains_child_cut_after (env : GeomEnv) (alternative_sort : Bool)
    (object_list : List CurveObject)
    (HN : object_list.Nodup)
    (HLam : ∀ p ∈ object_list, ∀ q ∈ object_list, ∀ c ∈ object_list,
      contains_rule env p c = true → contains_rule env q c = true →
      p = q ∨ contains_rule env p q = true ∨ contains_rule env q p = true)
    (HA : ∀ p ∈ object_list, ∀ c ∈ object_list, contains_rule env p c = true →
      c.closed = true → area_strict_gt p c)
    {A B : CurveObject} (hA : A ∈ object_list) (hB : B ∈ object_list)
    (hAB : contains_rule env A B = true) :
    Precedes A B ((sort_advanced env alternative_sort object_list).reverse) ∧
    (sort_advanced env alternative_sort object_list).indexOf B <
      (sort_advanced env alternative_sort object_list).indexOf A := by
  have hsa : sort_advanced env alternative_sort object_list =
      (sort_rounds env
        (sort_closed_curves (object_list.filter (fun e => e.closed)) ++
          (if alternative_sort = false
            then List.insertionSort xy_desc (object_list.filter (fun e => !e.closed))
            else dispersal_split
              (List.insertionSort xy_desc
                (object_list.filter (fun e => !e.closed)))))).reverse := rfl
  set C := sort_closed_curves (object_list.filter (fun e => e.closed)) with hCdef
  set O := (if alternative_sort = false
      then List.insertionSort xy_desc (object_list.filter (fun e => !e.closed))
      else dispersal_split
        (List.insertionSort xy_desc (object_list.filter (fun e => !e.closed)))) with hOdef
  have hCperm : C.Perm (object_list.filter (fun e => e.closed)) :=
    sort_closed_curves_perm _
  have hOperm : O.Perm (object_list.filter (fun e => !e.closed)) :=
    open_part_perm alternative_sort object_list
  have hcomplete_perm : (C ++ O).Perm object_list :=
    (hCperm.append hOperm).trans (List.filter_append_perm _ object_list)
  have hCmem : ∀ z ∈ C, z.closed = true ∧ z ∈ object_list := by
    intro z hz
    have := List.mem_filter.mp (hCperm.mem_iff.mp hz)
    exact ⟨by simpa using this.2, this.1⟩
  have hOmem : ∀ z ∈ O, z.closed = false ∧ z ∈ object_list := by
    intro z hz
    have := List.mem_filter.mp (hOperm.mem_iff.mp hz)
    exact ⟨by simpa using this.2, this.1⟩
  have hopen_no_contain : ∀ z, z.closed = false → ∀ w,
      contains_rule env z w = false := by
    intro z hz w
    unfold contains_rule
    rw [hz]
    rfl
  have HO : (C ++ O).Pairwise (fun a b => contains_rule env b a = false) := by
    rw [List.pairwise_append]
    refine ⟨?_, ?_, ?_⟩
    · refine List.Pairwise.imp_of_mem ?_ (sort_closed_curves_sorted_area _)
      intro a b ha hb hdesc
      cases hba : contains_rule env b a with
      | false => rfl
      | true =>
        exfalso
        have haC := hCmem a ha
        have hbC := hCmem b hb
        have := HA b hbC.2 a haC.2 hba haC.1
        exact this.2 hdesc
    · refine List.pairwise_of_forall_mem_list ?_
      intro a _ b hb
      exact hopen_no_contain b (hOmem b hb).1 a
    · intro a _ b hb
      exact hopen_no_contain b (hOmem b hb).1 a
  have HLam' : ∀ p ∈ C ++ O, ∀ q ∈ C ++ O, ∀ c ∈ C ++ O,
      contains_rule env p c = true → contains_rule env q c = true →
      p = q ∨ contains_rule env p q = true ∨ contains_rule env q p = true := by
    intro p hp q hq c hc
    exact HLam p (hcomplete_perm.mem_iff.mp hp) q (hcomplete_perm.mem_iff.mp hq)
      c (hcomplete_perm.mem_iff.mp hc)
  have hPre : Precedes A B (sort_rounds env (C ++ O)) :=
    sort_rounds_parent_first env (C ++ O) HLam' HO A B
      (hcomplete_perm.mem_iff.mpr hA) (hcomplete_perm.mem_iff.mpr hB) hAB
  constructor
  · rw [hsa, List.reverse_reverse]
    exact hPre
  · have hnd : (sort_advanced env alternative_sort object_list).Nodup :=
      (sort_advanced_perm env alternative_sort object_list).nodup_iff.mpr HN
    have hPre2 : Precedes B A (sort_advanced env alternative_sort object_list) := by
      rw [hsa]
      exact hPre.reverse
    exact hPre2.indexOf_lt hnd

/-! ### A concrete refutation of the unamended C1

Three closed curves: two large circles `objR` (area 100) and `objA`
(area 50) that overlap without either containing the other, and a small
circle `objB` (area 1) inside their overlap region, so the kernel reports
`objR ⊇ objB` and `objA ⊇ objB` (code 3) but neither of `objR`, `objA`
contains the other (code 1, intersecting).  This containment relation is
geometrically realizable and is *not* laminar.  `sort_advanced` roots the
first walk at `objR` (largest area), discovers `objB` as its child, and
only then visits `objA` — so in the pre-reversal order `objB` comes
*before* its container `objA`, and in the final output the enclosing
`objA` is cut before the nested `objB`. -/

def envC : GeomEnv :=
  ⟨fun p c => if (p = 1 ∧ c = 3) ∨ (p = 2 ∧ c = 3) then 3 else 1⟩

def objR : CurveObject :=
  { guid := 1, curve_type := "circle", closed := true, area := some 100,
    start_point := ⟨2, 6⟩, end_point := ⟨2, 6⟩, center_point := some ⟨8, 6⟩,
    bounding_box := ⟨2, 14, 0, 12⟩ }

def objA : CurveObject :=
  { guid := 2, curve_type := "circle", closed := true, area := some 50,
    start_point := ⟨18, 6⟩, end_point := ⟨18, 6⟩, center_point := some ⟨14, 6⟩,
    bounding_box := ⟨10, 18, 2, 10⟩ }

def objB : CurveObject :=
  { guid := 3, curve_type := "circle", closed := true, area := some 1,
    start_point := ⟨10, 6⟩, end_point := ⟨10, 6⟩, center_point := some ⟨11, 6⟩,
    bounding_box := ⟨10, 12, 5, 7⟩ }

/-- C1 is false as stated: `objA` contains `objB` under the §4.1 rule, yet
`sort_advanced` returns `[objA, objB, objR]` — the pre-reversal order is
`[objR, objB, objA]` with `objB` strictly *earlier* than `objA`, and the
final order cuts the enclosing `objA` before the nested `objB`. -/
theorem c1_counterexample :
    contains_rule envC objA objB = true ∧
    contains_rule envC objR objB = true ∧
    contains_rule envC objR objA = false ∧
    contains_rule envC objA objR = false ∧
    sort_advanced envC false [objR, objA, objB] = [objA, objB, objR] := by
  refine ⟨by decide, by decide, by decide, by decide, by decide⟩

/-- Witness for the amended C1 at a concrete laminar input: a square
containing a small circle. -/
def objP : CurveObject :=
  { guid := 1, curve_type := "polyline", closed := true, area := some 16,
    start_point := ⟨0, 0⟩, end_point := ⟨0, 0⟩, center_point := none,
    bounding_box := ⟨0, 4, 0, 4⟩ }

def objQ : CurveObject :=
  { guid := 2, curve_type := "circle", closed := true, area := some 3,
    start_point := ⟨1, 2⟩, end_point := ⟨1, 2⟩, center_point := some ⟨2, 2⟩,
    bounding_box := ⟨1, 3, 1, 3⟩ }

def envW : GeomEnv := ⟨fun p c => if p = 1 ∧ c = 2 then 3 else 0⟩

theorem c1_amended_witness :
    contains_rule envW objP objQ = true ∧
    (sort_advanced envW false [objP, objQ]).indexOf objQ <
      (sort_advanced envW false [objP, objQ]).indexOf objP :=
  ⟨by decide,
    (c1_parent_contains_child_cut_after envW false [objP, objQ]
      (by decide)
      (by decide)
      (by decide)
      (by decide)
      (by decide)
      (by decide)).2⟩

/-! ### C8: the order in which children are visited

`findChildrenObjects` returns the children in *candidate-list* order
(source lines 630-648: a single pass over `candidateList` appending
matches), and `sort_depth_first` iterates them in that order.  The
working list is sorted **descending** by `(start x, start y)`
(`reverse=True`, lines 537-541 and 552-556), not ascending. -/

def envD : GeomEnv := ⟨fun _ _ => 1⟩

def objPar : CurveObject :=
  { guid := 1, curve_type := "polyline", closed := true, area := some 100,
    start_point := ⟨0, 0⟩, end_point := ⟨0, 0⟩, center_point := none,
    bounding_box := ⟨0, 10, 0, 10⟩ }

def objO1 : CurveObject :=
  { guid := 2, curve_type := "line", closed := false, area := none,
    start_point := ⟨1, 1⟩, end_point := ⟨1, 2⟩, center_point := none,
    bounding_box := ⟨1, 2, 1, 2⟩ }

def objO2 : CurveObject :=
  { guid := 3, curve_type := "line", closed := false, area := none,
    start_point := ⟨2, 2⟩, end_point := ⟨2, 3⟩, center_point := none,
    bounding_box := ⟨2, 3, 2, 3⟩ }

/-- C8 is false as stated: for a closed parent with two open children at
start points (1,1) and (2,2), the working list built by `sort_advanced`
is `[parent, (2,2), (1,1)]` (open curves sorted descending), the
children list of the parent is `[(2,2), (1,1)]` — candidate order, i.e.
descending — and the depth-first walk visits (2,2) strictly before (1,1),
not in ascending order. -/
theorem c8_counterexample :
    isChildOf envD objPar objO1 = true ∧
    isChildOf envD objPar objO2 = true ∧
    pairLeQ (xyKey objO1) (xyKey objO2) ∧ ¬ pairLeQ (xyKey objO2) (xyKey objO1) ∧
    findChildrenObjects envD objPar [objPar, objO2, objO1] = some [objO2, objO1] ∧
    sort_depth_first envD 3 [objPar, objO2, objO1] objPar [] =
      [objPar, objO2, objO1] ∧
    sort_advanced envD false [objPar, objO1, objO2] = [objO1, objO2, objPar] := by
  refine ⟨by decide, by decide, by decide, by decide, by decide, by decide, by decide⟩

/-- C8 (amended): during the depth-first walk each node's children are
iterated in working-list order — `findChildrenObjects` returns an
order-preserving sublist of its candidate list — so when the candidates
are sorted descending by `(start x, start y)` (as the open part of the
working list is), the children are visited descending, not ascending. -/
theorem c8_children_candidate_order (env : GeomEnv) (parent : CurveObject)
    (cands : List CurveObject) (h : cands.Pairwise xy_desc) :
    ((findChildrenObjects env parent cands).getD []).Sublist cands ∧
    ((findChildrenObjects env parent cands).getD []).Pairwise xy_desc := by
  unfold findChildrenObjects
  by_cases hp : parent.closed = true
  · rw [if_pos hp]
    exact ⟨List.filter_sublist cands, h.sublist (List.filter_sublist cands)⟩
  · rw [if_neg hp]
    exact ⟨List.nil_sublist cands, List.Pairwise.nil⟩

theorem c8_children_candidate_order_witness :
    ((findChildrenObjects envD objPar [objO2, objO1]).getD []).Sublist
      [objO2, objO1] ∧
    ((findChildrenObjects envD objPar [objO2, objO1]).getD []).Pairwise xy_desc :=
  c8_children_candidate_order envD objPar [objO2, objO1] (by decide)

/-! ### Emitted commands

Each `gcode += ...` of the source appends one command line; the model
collects them as `Cmd` values, with every coordinate already quantized
exactly where the source quantizes it in the interpolated string. -/

inductive Cmd where
  | g00 (x y : ℚ)
  | g01 (x y : ℚ)
  | arc (dir : String) (x y i j : ℚ)
  | m12
  | m22
deriving DecidableEq, Repr

/-- `G01` linear cutting move? -/
def Cmd.isLinearMove : Cmd → Bool
  | Cmd.g01 _ _ => true
  | _ => false

/-! ### The arc direction and offset solver `arc_calc` (source lines 681-776)

The kernel/math-library calls that cannot be computed in exact rational
arithmetic are an oracle: `vectorLength` (`rs.VectorLength`, a square
root), `vectorAngle` (`rs.VectorAngle`, degrees in `[0, 180]`), and
`cosDeg`/`sinDeg` (`math.cos`/`math.sin` of the angle converted to
radians).  Vector creation and cross products are exact and computed. -/

structure TrigOracle where
  vectorLength : Point → ℚ
  vectorAngle : Point → Point → ℚ
  cosDeg : ℚ → ℚ
  sinDeg : ℚ → ℚ

/-- `rs.VectorCreate(a, b) = a - b` (planar). -/
def vsub (a b : Point) : Point := ⟨a.x - b.x, a.y - b.y⟩

/-- `WORLD_X_VECTOR` (source line 119). -/
def worldX : Point := ⟨1, 0⟩

/-- The z-component of the 3-D cross product of two planar vectors. -/
def crossZ (u v : Point) : ℚ := u.x * v.y - u.y * v.x

/-- `context.divide(context.abs(x), x)` with the `except` clause that maps
the 0/0 `InvalidOperation` to `Decimal('1')` (source lines 720-728 and
743-751). -/
def normalizeSign (q : ℚ) : ℚ := if q = 0 then 1 else |q| / q

/-- `arc_calc(obj)` (source lines 681-776).  `start_point` is
`rs.CurveStartPoint(obj)`, `center_point` the arc/circle center, and
`mid_point` the sampled point `rs.DivideCurve(obj, 4)[1]` (circle) or
`rs.DivideCurve(obj, 2)[1]` (arc).  Returns the rotation mnemonic and the
two signed offsets (pre-quantization). -/
def arc_calc (o : TrigOracle) (start_point center_point mid_point : Point) :
    String × ℚ × ℚ :=
  let offset_vector := vsub start_point center_point
  let offset_length := o.vectorLength offset_vector
  let mid_vector := vsub mid_point center_point
  let mid_vector_cross_product := normalizeSign (crossZ offset_vector mid_vector)
  let gcode_direction := if 0 < mid_vector_cross_product then "G03" else "G02"
  let offset_angle := o.vectorAngle offset_vector worldX
  let cross_product := normalizeSign (crossZ offset_vector worldX)
  let offset_angle := if cross_product < 0 then 360 - offset_angle else offset_angle
  let cos := o.cosDeg offset_angle
  let sin := o.sinDeg offset_angle
  let cos := if sin = 1 ∨ sin = -1 then 0 else cos
  let sin := if cos = 1 ∨ cos = -1 then 0 else sin
  let x_offset := cos * offset_length * (-1)
  let y_offset := sin * offset_length
  (gcode_direction, x_offset, y_offset)

/-- Modelled from the spec's words (§4.2 step 6): snap the pair
`(cos, sin)` — if `sin` is exactly ±1 force `cos` to 0; if `cos` (after
that) is exactly ±1 force `sin` to 0. -/
def spec_snap (c s : ℚ) : ℚ × ℚ :=
  let c1 := if s = 1 ∨ s = -1 then 0 else c
  let s1 := if c1 = 1 ∨ c1 = -1 then 0 else s
  (c1, s1)

/-- Modelled from the spec's words (§4.2 step 5): the offset angle
corrected to the full circle using the sign-normalized cross product with
the world X axis. -/
def spec_offset_angle (o : TrigOracle) (start_point center_point : Point) : ℚ :=
  let offset_vector := vsub start_point center_point
  let a := o.vectorAngle offset_vector worldX
  if normalizeSign (crossZ offset_vector worldX) < 0 then 360 - a else a

theorem normalizeSign_pm_one (q : ℚ) : normalizeSign q = 1 ∨ normalizeSign q = -1 := by
  unfold normalizeSign
  by_cases h : q = 0
  · rw [if_pos h]
    exact Or.inl rfl
  · rw [if_neg h]
    rcases lt_or_gt_of_ne h with hlt | hgt
    · right
      rw [abs_of_neg hlt, neg_div, div_self h]
    · left
      rw [abs_of_pos hgt, div_self h]

theorem normalizeSign_pos_iff (q : ℚ) : 0 < normalizeSign q ↔ 0 ≤ q := by
  unfold normalizeSign
  by_cases h : q = 0
  · rw [if_pos h, h]
    norm_num
  · rw [if_neg h]
    rcases lt_or_gt_of_ne h with hlt | hgt
    · rw [abs_of_neg hlt, neg_div, div_self h]
      constructor
      · intro hc; norm_num at hc
      · intro hc; exact absurd (lt_of_le_of_ne hc (Ne.symm h)) (not_lt.mpr hlt.le)
    · rw [abs_of_pos hgt, div_self h]
      constructor
      · intro _; exact hgt.le
      · intro _; norm_num

/-- Exact trigonometric data for the C5 scenario: the only queried angle
is 0° (the offset vector (10, 0) is parallel to world X), where the exact
values are `vectorLength = 10`, `vectorAngle = 0`, `cos 0° = 1`,
`sin 0° = 0`. -/
def scenario3Oracle : TrigOracle :=
  { vectorLength := fun v => |v.x| + |v.y|
    vectorAngle := fun _ _ => 0
    cosDeg := fun θ => if θ = 0 then 1 else 0
    sinDeg := fun _ => 0 }

unseal Rat.add Rat.mul Rat.inv Rat.sub Rat.ofScientific in
/-- C5: the solver returns `offset_x = -cos·radius`, `offset_y = sin·radius`
with `(cos, sin)` snapped as the spec states (sequentially: `sin = ±1`
forces `cos := 0`, then `cos = ±1` forces `sin := 0`), and on the concrete
scenario — circle of radius 10 at (50,50) with start point (60,50), first
half-arc sampled at the quarter point (50,60) — the quantized offsets are
`I -10.000`, `J 0.000`. -/
theorem c5_offset_formula :
    (∀ (o : TrigOracle) (start_point center_point mid_point : Point),
      (arc_calc o start_point center_point mid_point).2.1 =
        -(spec_snap (o.cosDeg (spec_offset_angle o start_point center_point))
            (o.sinDeg (spec_offset_angle o start_point center_point))).1 *
          o.vectorLength (vsub start_point center_point) ∧
      (arc_calc o start_point center_point mid_point).2.2 =
        (spec_snap (o.cosDeg (spec_offset_angle o start_point center_point))
            (o.sinDeg (spec_offset_angle o start_point center_point))).2 *
          o.vectorLength (vsub start_point center_point)) ∧
    (arc_calc scenario3Oracle ⟨60, 50⟩ ⟨50, 50⟩ ⟨50, 60⟩ = ("G03", -10, 0) ∧
      quantize3 (-10) = -10 ∧ quantize3 0 = 0) := by
  constructor
  · intro o start_point center_point mid_point
    unfold arc_calc spec_snap spec_offset_angle
    constructor
    · ring_nf
    · rfl
  · refine ⟨?_, ?_, ?_⟩
    · decide
    · decide
    · decide

/-- C6: the midpoint cross product is normalized to exactly ±1 by dividing
by its own absolute value, the degenerate 0/0 case defaults to +1 (and is
handled locally, the model is total), and the emitted rotation sense is
`G03` (counterclockwise) exactly when the raw cross product is
non-negative — i.e. a positive normalized value yields `G03` and a
non-positive (raw negative) value yields `G02`. -/
theorem c6_direction_sign_normalization :
    (∀ q : ℚ, normalizeSign q = 1 ∨ normalizeSign q = -1) ∧
    normalizeSign 0 = 1 ∧
    (∀ (o : TrigOracle) (start_point center_point mid_point : Point),
      (arc_calc o start_point center_point mid_point).1 =
        if 0 ≤ crossZ (vsub start_point center_point) (vsub mid_point center_point)
        then "G03" else "G02") := by
  refine ⟨normalizeSign_pm_one, rfl, ?_⟩
  intro o start_point center_point mid_point
  unfold arc_calc
  by_cases h : 0 ≤ crossZ (vsub start_point center_point) (vsub mid_point center_point)
  · rw [if_pos h]
    simp only []
    rw [if_pos ((normalizeSign_pos_iff _).mpr h)]
  · rw [if_neg h]
    simp only []
    rw [if_neg (fun hc => h ((normalizeSign_pos_iff _).mp hc))]

/-! ### The circle branch of `gcode_from_objects` (source lines 1133-1180)

The circle is split by the kernel at half the domain into sub-arcs
(two for a circle).  Each `SubCurve` record carries the kernel answers
used for one sub-arc: its start point, center, sampled mid point
(`rs.DivideCurve(sub, 2)[1]`) and end point. -/

structure SubCurve where
  start_point : Point
  center_point : Point
  mid_point : Point
  end_point : Point
deriving DecidableEq, Repr

/-- The circle branch (source lines 1143-1176): rapid move to the circle's
start, laser on, one circular move per sub-arc (tracking `last_entry`, the
raw end point of the last sub-arc), then — iff the quantized end of the
last arc differs from the quantized start point in either coordinate — a
single closing `G01` to the start point, and laser off.  (An empty split
list would be a `NameError` on `last_entry` in the source; the kernel
split of a circle is never empty.) -/
def gcode_from_objects_circle (o : TrigOracle) (obj_start : Point)
    (sub_curves : List SubCurve) : List Cmd :=
  [Cmd.g00 (quantize3 obj_start.x) (quantize3 obj_start.y), Cmd.m12] ++
  sub_curves.map (fun sub =>
    let res := arc_calc o sub.start_point sub.center_point sub.mid_point
    Cmd.arc res.1 (quantize3 sub.end_point.x) (quantize3 sub.end_point.y)
      (quantize3 res.2.1) (quantize3 res.2.2)) ++
  (match sub_curves.getLast? with
    | none => []
    | some lastSub =>
      if quantize3 lastSub.end_point.x ≠ quantize3 obj_start.x ∨
          quantize3 lastSub.end_point.y ≠ quantize3 obj_start.y
      then [Cmd.g01 (quantize3 obj_start.x) (quantize3 obj_start.y)]
      else []) ++
  [Cmd.m22]

/-- The line branch of `gcode_from_objects` (source lines 1285-1300):
rapid move to the start point, laser on, one `G01` to the end point,
laser off. -/
def gcode_from_objects_line (obj_start obj_end : Point) : List Cmd :=
  [Cmd.g00 (quantize3 obj_start.x) (quantize3 obj_start.y), Cmd.m12,
   Cmd.g01 (quantize3 obj_end.x) (quantize3 obj_end.y), Cmd.m22]

/-- The circle branch on a two-piece split, in closed form. -/
theorem gcode_from_objects_circle_pair (o : TrigOracle) (s : Point) (s1 s2 : SubCurve) :
    gcode_from_objects_circle o s [s1, s2] =
      [Cmd.g00 (quantize3 s.x) (quantize3 s.y), Cmd.m12,
       Cmd.arc (arc_calc o s1.start_point s1.center_point s1.mid_point).1
         (quantize3 s1.end_point.x) (quantize3 s1.end_point.y)
         (quantize3 (arc_calc o s1.start_point s1.center_point s1.mid_point).2.1)
         (quantize3 (arc_calc o s1.start_point s1.center_point s1.mid_point).2.2),
       Cmd.arc (arc_calc o s2.start_point s2.center_point s2.mid_point).1
         (quantize3 s2.end_point.x) (quantize3 s2.end_point.y)
         (quantize3 (arc_calc o s2.start_point s2.center_point s2.mid_point).2.1)
         (quantize3 (arc_calc o s2.start_point s2.center_point s2.mid_point).2.2)] ++
      (if quantize3 s2.end_point.x ≠ quantize3 s.x ∨
          quantize3 s2.end_point.y ≠ quantize3 s.y
        then [Cmd.g01 (quantize3 s.x) (quantize3 s.y)] else []) ++
      [Cmd.m22] := rfl

/-- C3: for a circle emitted as two back-to-back half-arcs, if the
quantized end point of the second half-arc differs from the quantized
start point in either coordinate, exactly one closing `G01` to the start
point is appended after the two arc commands (and before `M22`); if the
quantized points agree, no closing move is appended. -/
theorem c3_circle_closing_move (o : TrigOracle) (s : Point) (s1 s2 : SubCurve) :
    gcode_from_objects_circle o s [s1, s2] =
      [Cmd.g00 (quantize3 s.x) (quantize3 s.y), Cmd.m12,
       Cmd.arc (arc_calc o s1.start_point s1.center_point s1.mid_point).1
         (quantize3 s1.end_point.x) (quantize3 s1.end_point.y)
         (quantize3 (arc_calc o s1.start_point s1.center_point s1.mid_point).2.1)
         (quantize3 (arc_calc o s1.start_point s1.center_point s1.mid_point).2.2),
       Cmd.arc (arc_calc o s2.start_point s2.center_point s2.mid_point).1
         (quantize3 s2.end_point.x) (quantize3 s2.end_point.y)
         (quantize3 (arc_calc o s2.start_point s2.center_point s2.mid_point).2.1)
         (quantize3 (arc_calc o s2.start_point s2.center_point s2.mid_point).2.2)] ++
      (if quantize3 s2.end_point.x ≠ quantize3 s.x ∨
          quantize3 s2.end_point.y ≠ quantize3 s.y
        then [Cmd.g01 (quantize3 s.x) (quantize3 s.y)] else []) ++
      [Cmd.m22] ∧
    ((gcode_from_objects_circle o s [s1, s2]).filter Cmd.isLinearMove).length =
      (if quantize3 s2.end_point.x ≠ quantize3 s.x ∨
          quantize3 s2.end_point.y ≠ quantize3 s.y
        then 1 else 0) := by
  refine ⟨gcode_from_objects_circle_pair o s s1 s2, ?_⟩
  rw [gcode_from_objects_circle_pair o s s1 s2]
  by_cases h : quantize3 s2.end_point.x ≠ quantize3 s.x ∨
      quantize3 s2.end_point.y ≠ quantize3 s.y
  · rw [if_pos h, if_pos h]
    simp [Cmd.isLinearMove]
  · rw [if_neg h, if_neg h]
    simp [Cmd.isLinearMove]

/-- C4 (amended): every emitted coordinate is quantized to exactly 3
decimal places with **round-half-even** (the `ROUND_HALF_DOWN` context
constructed at source line 124 is never installed, so `quantize` runs
under the default context): `quantize3 x` is an integer multiple of
1/1000, within 1/2000 of `x`, and resolves exact halves to the even
multiple; and the circle-closure comparison uses exactly this
quantization — the closing move is present iff the quantized points
differ — never raw floating-point equality. -/
theorem c4_quantization_policy :
    (∀ x : ℚ, ∃ n : ℤ, quantize3 x = n / 1000 ∧
      |x - quantize3 x| ≤ 1 / 2000 ∧
      (|x - quantize3 x| = 1 / 2000 → Even n)) ∧
    (∀ (o : TrigOracle) (s : Point) (s1 s2 : SubCurve),
      Cmd.g01 (quantize3 s.x) (quantize3 s.y) ∈ gcode_from_objects_circle o s [s1, s2] ↔
        (quantize3 s2.end_point.x ≠ quantize3 s.x ∨
          quantize3 s2.end_point.y ≠ quantize3 s.y)) := by
  constructor
  · intro x
    have hkey : |x * 1000 - (roundHalfEven (x * 1000) : ℚ)| ≤ 1 / 2 ∧
        (|x * 1000 - (roundHalfEven (x * 1000) : ℚ)| = 1 / 2 →
          Even (roundHalfEven (x * 1000))) := by
      set y : ℚ := x * 1000 with hy
      have hfl : (⌊y⌋ : ℚ) ≤ y := Int.floor_le y
      have hfu : y < ⌊y⌋ + 1 := Int.lt_floor_add_one y
      unfold roundHalfEven
      by_cases h1 : y - (⌊y⌋ : ℚ) < 1 / 2
      · rw [if_pos h1]
        constructor
        · rw [abs_of_nonneg (by linarith)]
          linarith
        · intro habs
          rw [abs_of_nonneg (by linarith)] at habs
          linarith
      · rw [if_neg h1]
        by_cases h2 : 1 / 2 < y - (⌊y⌋ : ℚ)
        · rw [if_pos h2]
          push_cast
          constructor
          · rw [abs_of_nonpos (by linarith)]
            linarith
          · intro habs
            rw [abs_of_nonpos (by linarith)] at habs
            linarith
        · rw [if_neg h2]
          have heq : y - (⌊y⌋ : ℚ) = 1 / 2 := le_antisymm (not_lt.mp h2) (not_lt.mp h1)
          by_cases h3 : Even ⌊y⌋
          · rw [if_pos h3]
            constructor
            · rw [abs_of_nonneg (by linarith)]
              linarith
            · intro _
              exact h3
          · rw [if_neg h3]
            push_cast
            constructor
            · rw [abs_of_nonpos (by linarith)]
              linarith
            · intro _
              exact Int.even_add_one.mpr h3
    have hscale : x - quantize3 x = (x * 1000 - (roundHalfEven (x * 1000) : ℚ)) / 1000 := by
      unfold quantize3
      ring
    refine ⟨roundHalfEven (x * 1000), rfl, ?_, ?_⟩
    · rw [hscale, abs_div, abs_of_pos (by norm_num : (0:ℚ) < 1000)]
      have := hkey.1
      linarith
    · rw [hscale, abs_div, abs_of_pos (by norm_num : (0:ℚ) < 1000)]
      intro habs
      exact hkey.2 (by linarith)
  · intro o s s1 s2
    rw [gcode_from_objects_circle_pair o s s1 s2]
    by_cases h : quantize3 s2.end_point.x ≠ quantize3 s.x ∨
        quantize3 s2.end_point.y ≠ quantize3 s.y
    · rw [if_pos h]
      simp only [List.mem_append, List.mem_singleton, List.mem_cons]
      constructor
      · intro _
        exact h
      · intro _
        tauto
    · rw [if_neg h]
      simp [h]

unseal Rat.add Rat.mul Rat.inv Rat.sub Rat.ofScientific in
/-- Round-half-down would emit 0.187 for the float-exact coordinate
3/16 = 0.1875; the script emits 0.188 (half-even).  The `G01` of the line
branch at end point (3/16, 0) carries X = 0.188, not the 0.187 the claim
requires. -/
theorem c4_counterexample :
    gcode_from_objects_line ⟨0, 0⟩ ⟨3/16, 0⟩ =
      [Cmd.g00 0 0, Cmd.m12, Cmd.g01 (188/1000) 0, Cmd.m22] ∧
    quantize3 (3/16) = 188/1000 ∧
    quantize3HalfDownSpec (3/16) = 187/1000 ∧
    (188/1000 : ℚ) ≠ 187/1000 := by
  refine ⟨by decide, by decide, by decide, by decide⟩

unseal Rat.add Rat.mul Rat.inv Rat.sub Rat.ofScientific in
theorem c4_quantization_policy_witness :
    ∃ n : ℤ, quantize3 (3/2000) = n / 1000 ∧
      |3/2000 - quantize3 (3/2000)| ≤ 1 / 2000 ∧
      (|3/2000 - quantize3 (3/2000)| = 1 / 2000 → Even n) :=
  c4_quantization_policy.1 (3/2000)

/-! ### The adaptive linearizer `curve_calc_to_lines` (source lines 829-929)

Kernel queries are a `CurveKernel` oracle; Python floats are exact
rationals (`scan_resolution = 0.005` is `1/200`, and the response-curve
coefficients `A, B, C, D` are taken at their decimal values).  The two
`while` loops carry a fuel parameter and return `none` when it runs out —
the loops genuinely need not terminate (the inner loop advances past the
domain end until the chord reaches the target, which a bounded curve
extension never guarantees).  `none` also models the places where the
Python code raises (`ZeroDivisionError` when the sampled curvature is
constant, `TypeError`/`NameError` on the `None`-valued variables). -/

structure CurveKernel where
  curveLength : ℚ
  curveDomain : ℚ × ℚ
  curveCurvature : ℚ → ℚ
  evaluateCurve : ℚ → Point
  vectorLength : Point → ℚ

/-- The curvature pre-scan (source lines 857-863): sample `divisions`
parameters and record the extreme curvatures.  Python 2 compares numbers
against the initial `None` (`x > None` is true, `x < None` is false),
which the `Option` fold reproduces. -/
def curvature_minmax (K : CurveKernel) (divisions : Nat) : Option ℚ × Option ℚ :=
  (List.range divisions).foldl
    (fun mm i =>
      let p := K.curveDomain.1 +
        ((K.curveDomain.2 - K.curveDomain.1) / (divisions : ℚ)) * (i : ℚ)
      let c := K.curveCurvature p
      let mx := match mm.2 with
        | none => some c
        | some m => if m < c then some c else some m
      let mn := match mm.1 with
        | none => some c
        | some m => if c < m then some c else some m
      (mn, mx))
    (none, none)

/-- The inner `while length < segment_length` loop (source lines 897-900):
advance the parameter by `scan_resolution = 0.005`, evaluate the curve,
and measure the chord from the last emitted point; returns the final
`(next_parameter, length, return_point)`. -/
def ccl_inner (K : CurveKernel) (current_point : Point) (segment_length : ℚ) :
    Nat → ℚ → ℚ → Option Point → Option (ℚ × ℚ × Option Point)
  | 0, _, _, _ => none
  | f + 1, next_parameter, length, return_point =>
    if length < segment_length then
      let np := next_parameter + 1/200
      let rp := K.evaluateCurve np
      let len := K.vectorLength (vsub rp current_point)
      ccl_inner K current_point segment_length f np len (some rp)
    else
      some (next_parameter, length, return_point)

/-- The outer `while next_parameter < curve_domain[1]` loop (source lines
877-907), collecting `point_list`.  `cmin`/`cmax` are the curvature
extremes as `Option` (`none` reproduces the Python crash on `None`
arithmetic, which only happens once the loop body runs); `return_point`
threads the last inner-loop sample across iterations exactly as the
Python local does. -/
def ccl_outer (K : CurveKernel) (cminmax : Option ℚ × Option ℚ) :
    Nat → ℚ → Point → List Point → Option Point → Option (List Point)
  | 0, _, _, _, _ => none
  | f + 1, next_parameter, current_point, point_list, return_point =>
    if next_parameter < K.curveDomain.2 then
      match cminmax with
      | (some cmin, some cmax) =>
        if cmax - cmin = 0 then none
        else
          let curve_curvature := K.curveCurvature next_parameter
          let curvature_normalized := (curve_curvature - cmin) / (cmax - cmin)
          let cubified : ℚ := (-197142/100000) * curvature_normalized ^ 3 +
            (29585/10000) * curvature_normalized ^ 2 +
            (129348/10000000) * curvature_normalized + 0
          let segment_length := quantize3 (cubified * (11/2) + (1 - cubified) * (1/10))
          match ccl_inner K current_point segment_length f next_parameter 0 return_point with
          | none => none
          | some (np, len, rp) =>
            if K.curveDomain.2 < np then some point_list
            else if np ≤ K.curveDomain.2 ∧ segment_length ≤ len then
              match rp with
              | none => none
              | some rpoint =>
                ccl_outer K cminmax f np rpoint (point_list ++ [current_point]) (some rpoint)
            else
              ccl_outer K cminmax f np current_point point_list rp
      | _ => none
    else
      some point_list

/-- `curve_calc_to_lines(obj)` (source lines 829-929): rapid move and
laser-on, curvature-adaptive point collection, then — only when
`point_list` is non-empty — the `G01` moves (skipping points that
quantize to the start point) followed by one `G01` to the exact end
point, and laser off. -/
def curve_calc_to_lines (K : CurveKernel) (obj_start obj_end : Point) (fuel : Nat) :
    Option (List Cmd) :=
  let head := [Cmd.g00 (quantize3 obj_start.x) (quantize3 obj_start.y), Cmd.m12]
  let curve_divisions := (⌊K.curveLength⌋).toNat
  match ccl_outer K (curvature_minmax K curve_divisions) fuel
    K.curveDomain.1 obj_start [] none with
  | none => none
  | some point_list =>
    let body :=
      if point_list.length ≠ 0 then
        (point_list.filter (fun p =>
            decide (¬(quantize3 p.x = quantize3 obj_start.x ∧
              quantize3 p.y = quantize3 obj_start.y)))).map
          (fun p => Cmd.g01 (quantize3 p.x) (quantize3 p.y)) ++
        [Cmd.g01 (quantize3 obj_end.x) (quantize3 obj_end.y)]
      else []
    some (head ++ body ++ [Cmd.m22])

/-- The C2 failing input: a short, tightly wound free-form curve.  The
kernel reports length 2 mm (so the curvature pre-scan samples twice, at
parameters 0 and 0.05, seeing curvatures 0 and 0.5), domain (0, 0.1), and
a slow parameterization whose points stay within 0.09 mm of the start
point inside the domain — so the very first chord target (0.1 mm) is
reached only at parameter 0.115, past the domain end. -/
def linearizerK2 : CurveKernel :=
  { curveLength := 2
    curveDomain := (0, 1/10)
    curveCurvature := fun t => 10 * t
    evaluateCurve := fun t => ⟨0, 9 * t / 10⟩
    vectorLength := fun v => |v.x| + |v.y| }

unseal Rat.add Rat.mul Rat.inv Rat.sub Rat.ofScientific in
/-- C2 fails on the code: for this free-form curve the first chord target
is not reached inside the domain, the outer loop `break`s with
`point_list` empty, and — because the final `G01` to the exact end point
sits inside `if len(point_list):` (source line 909) — the emitted block is
`G00 / M12 / M22` with **no** cutting move at all: the last cutting point
emitted is not the curve's end point (0, 0.09); nothing is cut. -/
theorem c2_failing_input_eval :
    curve_calc_to_lines linearizerK2 ⟨0, 0⟩ ⟨0, 9/100⟩ 100 =
      some [Cmd.g00 0 0, Cmd.m12, Cmd.m22] ∧
    Cmd.g01 (quantize3 0) (quantize3 (9/100)) ∉
      (curve_calc_to_lines linearizerK2 ⟨0, 0⟩ ⟨0, 9/100⟩ 100).getD [] := by
  refine ⟨by decide, by decide⟩

end Gcode
